import Mathlib

/-!
The concurrent dispatch engine of `main.go` (tileserver-performance).

A shallow embedding of `urlRequests` / `imgRequests` (one batch of the load
generator) as an executable small-step machine, together with the workload
producer `newRandomSpot` and the run report computation.

* Go `int` is modelled as a 64-bit two's complement integer: every arithmetic
  result is passed through `wrapInt`.
* The counter of a `sync.WaitGroup` is an `int32`: `wg.Add(delta)` adds the low
  32 bits of `delta` to it (`wrapInt32`) and panics when the result is negative.
* A batch is a state machine whose actors are the coordinator (the `for` loop
  of the function) and one task per launched goroutine.  A schedule is a list
  of actors; `exec` runs it.  Every interleaving of the goroutines is a
  schedule.
* `nFails++` inside a goroutine is an unsynchronised read followed by a write,
  so it takes two steps (`load`, then `store`).
* The network is an oracle `env req attempt` giving the result of the
  `attempt`-th call of `client.Do` for request number `req`.
* Each task carries three instrumentation counters, for the number of times
  it has executed `nFails++`, `clients <- client` and `wg.Done()`.
* `logrus.Fatal` / `logrus.Fatalf` terminate the process (`os.Exit(1)`):
  deferred functions do not run and no actor takes a step afterwards.
-/

namespace TileserverPerformance

/-! ## Machine integers -/

/-- Two to the power 63: the first value above the range of a 64-bit Go `int`. -/
def intLimit : Int := 9223372036854775808

/-- Wrap an exact integer into the range of a 64-bit two's complement Go `int`. -/
def wrapInt (x : Int) : Int :=
  (x + intLimit) % (2 * intLimit) - intLimit

/-- Two to the power 31: the first value above the range of the 32-bit counter
of a `sync.WaitGroup`. -/
def counterLimit : Int := 2147483648

/-- The value a `sync.WaitGroup` keeps of a counter of exact value `x`: its low
32 bits, read as a two's complement `int32`. -/
def wrapInt32 (x : Int) : Int :=
  (x + counterLimit) % (2 * counterLimit) - counterLimit

/-! ## Configuration (`type config struct`) -/

/-- The `config` struct of `main.go`. -/
structure config where
  BaseURL : String
  NClients : Int
  NRequests : Int
  MaxFailsPerClient : Int

/-- The two batch functions of `main.go`: `urlRequests` and `imgRequests`. -/
inductive Workload where
  | url
  | img
  deriving DecidableEq, Repr

/-- The local `totalRequests` of `urlRequests` (`NClients * NRequests`) and of
`imgRequests` (`NClients * NRequests * 32`), in Go `int` arithmetic. -/
def totalRequests (w : Workload) (cfg : config) : Int :=
  match w with
  | .url => wrapInt (cfg.NClients * cfg.NRequests)
  | .img => wrapInt (wrapInt (cfg.NClients * cfg.NRequests) * 32)

/-- The local `maxFails := config.NClients * config.MaxFailsPerClient`. -/
def maxFails (cfg : config) : Int :=
  wrapInt (cfg.NClients * cfg.MaxFailsPerClient)

/-! ## Workload producer (`newRandomSpot`, `randFloat`, `randInt`) -/

/-- The `params` struct; `float64` coordinates are taken as exact rationals. -/
structure params where
  zoom : Int
  lat : ℚ
  lng : ℚ
  deriving DecidableEq, Repr

/-- The function `randFloat`; `f` is the value returned by `rand.Float64()`. -/
def randFloat (min max : ℚ) (f : ℚ) : ℚ :=
  min + f * (max - min)

/-- The function `randInt`; `intn` is the random source `rand.Intn`, applied to
`max - min`. -/
def randInt (min max : Int) (intn : Int → Int) : Int :=
  wrapInt (min + intn (wrapInt (max - min)))

/-- The function `newRandomSpot`; `intn` stands for `rand.Intn` and `f₁`, `f₂`
for the two successive results of `rand.Float64()`. -/
def newRandomSpot (intn : Int → Int) (f₁ f₂ : ℚ) : params :=
  { zoom := randInt 14 22 intn
    lat := randFloat 49.4426671413 50.1280516628 f₁
    lng := randFloat 5.67405195478 6.24275109216 f₂ }

/-! ## The resilient executor (`retrier.Run` around `client.Do`) -/

/-- Result of one call of `client.Do(req)`: a transport error (`err != nil`,
no response) or a response with its status code. -/
inductive Outcome where
  | err
  | resp (status : Int)
  deriving DecidableEq, Repr

/-- Length of the backoff slice built by `retrier.ConstantBackoff(5, ...)`. -/
def backoffLen : Nat := 5

/-- The loop of `retrier.Run` with the default classifier (a `nil` error
succeeds, any other error is retried): the work function is called, and is
called again while it returns an error and fewer than `len(backoff)` retries
have been made.  `work a` is the result of call number `a`; the value returned
is that of the last call made. -/
def retrierRun (work : Nat → Outcome) : (retriesLeft : Nat) → (attempt : Nat) → Outcome
  | 0, attempt => work attempt
  | n + 1, attempt =>
    match work attempt with
    | .err => retrierRun work n (attempt + 1)
    | .resp st => .resp st

/-- What `r.Run(...)` leaves in `err` / `resp` for request number `req`. -/
def outcome (env : Nat → Nat → Outcome) (req : Nat) : Outcome :=
  retrierRun (env req) backoffLen 0

/-! ## The batch machine -/

/-- Program counter of one goroutine launched by the dispatch loop. -/
inductive TaskPc where
  /-- About to execute `r.Run(...)`. -/
  | run
  /-- The branch `err != nil` was taken; about to read `nFails`. -/
  | load
  /-- Has read `v` from `nFails`; about to write `v + 1` to it. -/
  | store (v : Int)
  /-- In the deferred function, about to execute `clients <- client`. -/
  | release
  /-- In the deferred function, about to execute `wg.Done()`. -/
  | signal
  /-- The goroutine has returned. -/
  | finished
  deriving DecidableEq, Repr

/-- One launched goroutine: the request number and client it was given, its
program counter, and three instrumentation counters (how many times it has
completed `nFails++`, `clients <- client` and `wg.Done()`). -/
structure Task where
  req : Nat
  client : Nat
  pc : TaskPc
  incs : Nat
  sent : Nat
  dones : Nat
  deriving DecidableEq, Repr

/-- Where the batch as a whole stands. -/
inductive Phase where
  /-- Top of iteration `i` of the dispatch loop. -/
  | dispatch (i : Nat)
  /-- Iteration `i` has passed the threshold check, about to execute
  `client := <-clients` and the `go` statement. -/
  | acquire (i : Nat)
  /-- The loop is over, the coordinator is in `wg.Wait()`. -/
  | draining
  /-- The report line has been printed and the function has returned. -/
  | completed
  /-- The coordinator called `logrus.Fatalf("Failed over ...")`. -/
  | aborted
  /-- A task called `logrus.Fatal("Fatal code:", ...)`. -/
  | fatal
  /-- A run-time panic (negative channel size, negative WaitGroup counter,
  integer division by zero). -/
  | panicked
  deriving DecidableEq, Repr

/-- State of one batch: the buffered channel `clients` (clients are numbered),
the goroutines launched so far in launch order, the shared counter `nFails`,
the 32-bit counter of the WaitGroup, and the phase. -/
structure State where
  clients : List Nat
  tasks : List Task
  nFails : Int
  wg : Int
  phase : Phase
  deriving DecidableEq, Repr

/-- The process is still running the batch. -/
def Phase.alive : Phase → Bool
  | .dispatch _ => true
  | .acquire _ => true
  | .draining => true
  | _ => false

/-- Capacity of the channel made by `make(chan *http.Client, config.NClients)`. -/
def poolSize (cfg : config) : Nat := cfg.NClients.toNat

/-- State after the set-up part of the function: the channel is made and
filled with `NClients` fresh clients, `wg.Add(totalRequests)` is executed,
`nFails := 0`.  `make` panics on a negative size (running out of memory is
outside the model).  `wg.Add(delta)` adds the low 32 bits of `delta` to the
32-bit counter of the WaitGroup and panics when the counter, read as an
`int32`, is negative. -/
def init (w : Workload) (cfg : config) : State :=
  if cfg.NClients < 0 then
    { clients := [], tasks := [], nFails := 0, wg := 0, phase := .panicked }
  else if wrapInt32 (totalRequests w cfg) < 0 then
    { clients := List.range (poolSize cfg), tasks := [], nFails := 0, wg := 0,
      phase := .panicked }
  else
    { clients := List.range (poolSize cfg), tasks := [], nFails := 0,
      wg := wrapInt32 (totalRequests w cfg), phase := .dispatch 0 }

/-- One step of the coordinator (the body of the batch function).
* `dispatch i`: the loop test `i < totalRequests`, then the threshold check
  `nFails > maxFails` (which calls `logrus.Fatalf`); when the loop is over the
  coordinator enters `wg.Wait()`.
* `acquire i`: `client := <-clients`, blocked on an empty channel, followed
  by the `go` statement and `i++`.
* `draining`: `wg.Wait()` returns once the counter is zero; the division in
  the arguments of `fmt.Printf` panics when `totalRequests` is zero. -/
def coordStep (w : Workload) (cfg : config) (s : State) : Option State :=
  match s.phase with
  | .dispatch i =>
    if (i : Int) < totalRequests w cfg then
      if s.nFails > maxFails cfg then some { s with phase := .aborted }
      else some { s with phase := .acquire i }
    else some { s with phase := .draining }
  | .acquire i =>
    match s.clients with
    | [] => none
    | c :: rest =>
      some { s with
        clients := rest
        tasks := s.tasks ++ [{ req := i, client := c, pc := .run, incs := 0, sent := 0, dones := 0 }]
        phase := .dispatch (i + 1) }
  | .draining =>
    if s.wg = 0 then
      if totalRequests w cfg = 0 then some { s with phase := .panicked }
      else some { s with phase := .completed }
    else none
  | _ => none

/-- One step of the goroutine at position `j` of the launch order.
* `run`: `r.Run(...)` and the two tests that follow it: an error leads to
  `nFails++`, a status other than 200 to `logrus.Fatal` (the process exits,
  the deferred function does not run), status 200 to the deferred function.
* `load`, `store`: the read and the write of `nFails++`.
* `release`, `signal`: the deferred `clients <- client` (blocked on a full
  channel) and `wg.Done()`, which is `wg.Add(-1)` on the 32-bit counter and
  panics when the counter becomes negative. -/
def taskStep (cfg : config) (env : Nat → Nat → Outcome) (j : Nat) (s : State) :
    Option State :=
  if s.phase.alive then
    match s.tasks[j]? with
    | none => none
    | some t =>
      match t.pc with
      | .run =>
        match outcome env t.req with
        | .err => some { s with tasks := s.tasks.set j { t with pc := .load } }
        | .resp st =>
          if st ≠ 200 then some { s with phase := .fatal }
          else some { s with tasks := s.tasks.set j { t with pc := .release } }
      | .load => some { s with tasks := s.tasks.set j { t with pc := .store s.nFails } }
      | .store v =>
        some { s with
          tasks := s.tasks.set j { t with pc := .release, incs := t.incs + 1 }
          nFails := wrapInt (v + 1) }
      | .release =>
        if s.clients.length < poolSize cfg then
          some { s with
            clients := s.clients ++ [t.client]
            tasks := s.tasks.set j { t with pc := .signal, sent := t.sent + 1 } }
        else none
      | .signal =>
        if wrapInt32 (s.wg - 1) < 0 then some { s with phase := .panicked }
        else
          some { s with
            tasks := s.tasks.set j { t with pc := .finished, dones := t.dones + 1 }
            wg := wrapInt32 (s.wg - 1) }
      | .finished => none
  else none

/-- The actors of a batch. -/
inductive Actor where
  | coordinator
  | task (j : Nat)
  deriving DecidableEq, Repr

/-- One step of the batch by the given actor; `none` when the actor is blocked
or has nothing left to do. -/
def step (w : Workload) (cfg : config) (env : Nat → Nat → Outcome) (a : Actor)
    (s : State) : Option State :=
  match a with
  | .coordinator => coordStep w cfg s
  | .task j => taskStep cfg env j s

/-- Run a schedule from a state; `none` when some scheduled actor cannot move. -/
def exec (w : Workload) (cfg : config) (env : Nat → Nat → Outcome) :
    List Actor → State → Option State
  | [], s => some s
  | a :: rest, s =>
    match step w cfg env a s with
    | none => none
    | some t => exec w cfg env rest t

/-- The function `urlRequests`: the batch run under a schedule. -/
def urlRequests (cfg : config) (env : Nat → Nat → Outcome) (sched : List Actor) :
    Option State :=
  exec .url cfg env sched (init .url cfg)

/-- The function `imgRequests`: the batch run under a schedule. -/
def imgRequests (cfg : config) (env : Nat → Nat → Outcome) (sched : List Actor) :
    Option State :=
  exec .img cfg env sched (init .img cfg)

/-- States a batch can be in. -/
inductive Reach (w : Workload) (cfg : config) (env : Nat → Nat → Outcome) : State → Prop where
  | start : Reach w cfg env (init w cfg)
  | next {s t : State} (a : Actor) : Reach w cfg env s → step w cfg env a s = some t →
      Reach w cfg env t

/-! ## Run report -/

/-- The four fields of the line printed at the end of a batch. -/
structure Report where
  poolSize : Int
  totalDuration : Int
  meanDuration : Int
  failureCount : Int
  deriving DecidableEq, Repr

/-- The arguments of the final `fmt.Printf`, for `d = end.Sub(start)` in
nanoseconds: `d / time.Duration(totalRequests)` is Go integer division, which
truncates and panics on a zero divisor (`none`); the quotient of two values
in range is in range, the divisor being non-negative here. -/
def runReport (w : Workload) (cfg : config) (d : Int) (nFails : Int) : Option Report :=
  if totalRequests w cfg = 0 then none
  else
    some { poolSize := cfg.NClients, totalDuration := d,
           meanDuration := Int.tdiv d (totalRequests w cfg), failureCount := nFails }

/-! ## Quantities the properties are stated about -/

/-- The task still owns the client it was given: it has not yet executed
`clients <- client`. -/
def TaskPc.holds : TaskPc → Bool
  | .run => true
  | .load => true
  | .store _ => true
  | .release => true
  | .signal => false
  | .finished => false

/-- The goroutine has returned. -/
def TaskPc.isFinished : TaskPc → Bool
  | .finished => true
  | _ => false

/-- Clients currently borrowed by in-flight tasks. -/
def borrowed (s : State) : List Nat :=
  (s.tasks.filter (fun t => t.pc.holds)).map (fun t => t.client)

/-- Number of launched goroutines that have returned. -/
def finishedCount (s : State) : Nat :=
  (s.tasks.filter (fun t => t.pc.isFinished)).length

/-- Number of completed executions of `nFails++` over all tasks. -/
def incsTotal (s : State) : Nat :=
  (s.tasks.map (fun t => t.incs)).sum

/-- Number of requests among the first `n` whose every attempt fails at the
transport level, so that `r.Run` returns an error. -/
def failingRequests (env : Nat → Nat → Outcome) (n : Nat) : Nat :=
  (List.range n).countP (fun k => decide (outcome env k = .err))

/-- Number of steps a task has taken, at most. -/
def TaskPc.rank : TaskPc → Nat
  | .run => 0
  | .load => 1
  | .store _ => 2
  | .release => 3
  | .signal => 4
  | .finished => 5

/-- Progress of the coordinator, `T` being the number of requests. -/
def Phase.rank (T : Nat) : Phase → Nat
  | .dispatch i => 2 * i
  | .acquire i => 2 * i + 1
  | .draining => 2 * T + 1
  | _ => 2 * T + 2

/-- Progress measure of a batch: it grows with every step. -/
def progress (T : Nat) (s : State) : Nat :=
  s.phase.rank T + (s.tasks.map (fun t => t.pc.rank)).sum

/-- How a task left `r.Run`, once it is past it: with an error and one
increment done, or with a status 200 response and no increment. -/
def Task.exitOK (env : Nat → Nat → Outcome) (t : Task) : Prop :=
  (outcome env t.req = .err ∧ t.incs = 1) ∨ (outcome env t.req = .resp 200 ∧ t.incs = 0)

/-- Per-task invariant: the counters and the outcome of the request agree
with the program counter. -/
def TaskOK (env : Nat → Nat → Outcome) (t : Task) : Prop :=
  match t.pc with
  | .run => t.incs = 0 ∧ t.sent = 0 ∧ t.dones = 0
  | .load => outcome env t.req = .err ∧ t.incs = 0 ∧ t.sent = 0 ∧ t.dones = 0
  | .store _ => outcome env t.req = .err ∧ t.incs = 0 ∧ t.sent = 0 ∧ t.dones = 0
  | .release => t.exitOK env ∧ t.sent = 0 ∧ t.dones = 0
  | .signal => t.exitOK env ∧ t.sent = 1 ∧ t.dones = 0
  | .finished => t.exitOK env ∧ t.sent = 1 ∧ t.dones = 1

/-- The request count fits the 32-bit counter of the WaitGroup. -/
def counterFits (w : Workload) (cfg : config) : Prop :=
  0 ≤ totalRequests w cfg ∧ totalRequests w cfg < counterLimit

/-- Invariant tying the phase to the number of launched tasks; a panic of a
batch whose request count fits the counter of the WaitGroup can only be the
division by zero of the report. -/
def PhaseOK (w : Workload) (cfg : config) (s : State) : Prop :=
  match s.phase with
  | .dispatch i => s.tasks.length = i ∧ i ≤ (totalRequests w cfg).toNat
  | .acquire i => s.tasks.length = i ∧ (i : Int) < totalRequests w cfg
  | .draining => s.tasks.length = (totalRequests w cfg).toNat
  | .completed => s.tasks.length = (totalRequests w cfg).toNat ∧ s.wg = 0 ∧
      totalRequests w cfg ≠ 0
  | .panicked => s.tasks.length ≤ (totalRequests w cfg).toNat ∧
      (counterFits w cfg → totalRequests w cfg = 0)
  | _ => s.tasks.length ≤ (totalRequests w cfg).toNat

/-- The inductive invariant of a batch whose set-up did not panic. -/
structure Inv (w : Workload) (cfg : config) (env : Nat → Nat → Outcome) (s : State) :
    Prop where
  nonneg : 0 ≤ cfg.NClients
  counter : 0 ≤ wrapInt32 (totalRequests w cfg)
  wgRange : 0 ≤ s.wg ∧ s.wg < counterLimit
  reqs : s.tasks.map (fun t => t.req) = List.range s.tasks.length
  pool : (s.clients ++ borrowed s).Perm (List.range (poolSize cfg))
  wg : counterFits w cfg → s.wg + (finishedCount s : Int) = totalRequests w cfg
  task : ∀ t ∈ s.tasks, TaskOK env t
  phase : PhaseOK w cfg s
  failsNonneg : 0 ≤ s.nFails
  failsLe : s.nFails ≤ (incsTotal s : Int)
  stored : ∀ t ∈ s.tasks, ∀ v, t.pc = .store v → 0 ≤ v ∧ v ≤ (incsTotal s : Int)

/-! ## Sample inputs -/

/-- Sample configuration: two clients, one request per client, one tolerated
failure per client. -/
def sampleConfig : config :=
  { BaseURL := "http://tiles.example", NClients := 2, NRequests := 1, MaxFailsPerClient := 1 }

/-- Network in which every call returns a response with status 200. -/
def allOk : Nat → Nat → Outcome := fun _ _ => .resp 200

/-- Network in which every call fails at the transport level. -/
def allErr : Nat → Nat → Outcome := fun _ _ => .err

/-- State of `urlRequests sampleConfig` after the first request was dispatched:
client 0 is borrowed, client 1 is in the channel. -/
def oneBorrowed : State :=
  { clients := [1]
    tasks := [{ req := 0, client := 0, pc := .run, incs := 0, sent := 0, dones := 0 }]
    nFails := 0, wg := 2, phase := .dispatch 1 }

/-- The number of requests the configuration asks for, as an exact integer:
`P * R` for the geo workload and `P * R * 32` for the fixed-tile workload. -/
def nominalRequests (w : Workload) (cfg : config) : Int :=
  match w with
  | .url => cfg.NClients * cfg.NRequests
  | .img => cfg.NClients * cfg.NRequests * 32

/-- A configuration whose product `NClients * NRequests` is `2 ^ 64 + 4`. -/
def overflowConfig : config :=
  { BaseURL := "http://tiles.example", NClients := 4, NRequests := 4611686018427387905,
    MaxFailsPerClient := 1 }

/-- A configuration for which `NClients * NRequests * 32` is `2 ^ 64 + 32`. -/
def overflowConfigImg : config :=
  { BaseURL := "http://tiles.example", NClients := 1, NRequests := 576460752303423489,
    MaxFailsPerClient := 1 }

/-- Schedule in which each of the first `n` requests is dispatched and runs to
its end (three task steps, for a request answered with status 200) before the
next one is dispatched, followed by the end of the loop and `wg.Wait()`. -/
def sequentialSchedule (n : Nat) : List Actor :=
  (List.range n).flatMap
    (fun i => [Actor.coordinator, Actor.coordinator, Actor.task i, Actor.task i, Actor.task i])
    ++ [Actor.coordinator, Actor.coordinator]
/-- Configuration with one client, one request and no tolerated failure. -/
def singleConfig : config :=
  { BaseURL := "http://tiles.example", NClients := 1, NRequests := 1, MaxFailsPerClient := 0 }

/-- State of `urlRequests singleConfig` once its only request is dispatched. -/
def singleDispatched : State :=
  { clients := []
    tasks := [{ req := 0, client := 0, pc := .run, incs := 0, sent := 0, dones := 0 }]
    nFails := 0, wg := 1, phase := .dispatch 1 }
/-- Network in which every call returns a response with status 503. -/
def allBusy : Nat → Nat → Outcome := fun _ _ => .resp 503
/-- A completed state of `urlRequests sampleConfig` under `allOk`. -/
def sampleCompleted : State :=
  { clients := [0, 1]
    tasks := [{ req := 0, client := 0, pc := .finished, incs := 0, sent := 1, dones := 1 },
              { req := 1, client := 1, pc := .finished, incs := 0, sent := 1, dones := 1 }]
    nFails := 0, wg := 0, phase := .completed }

/-- A configuration whose product `NClients * NRequests` is `2 ^ 63`: in Go
`int` arithmetic `totalRequests` is `-2 ^ 63`, whose low 32 bits are zero. -/
def negativeTotal : config :=
  { BaseURL := "http://tiles.example", NClients := 2, NRequests := 4611686018427387904,
    MaxFailsPerClient := 1 }

/-- A configuration for which `NClients * NRequests * 32` is `2 ^ 63`. -/
def negativeTotalImg : config :=
  { BaseURL := "http://tiles.example", NClients := 1, NRequests := 288230376151711744,
    MaxFailsPerClient := 1 }
/-- The coordinator still has a threshold check to perform: it is at the top
of an iteration of the dispatch loop, or one more iteration follows the one it
is in. -/
def checkAhead (w : Workload) (cfg : config) (s : State) : Bool :=
  match s.phase with
  | .dispatch i => decide ((i : Int) < totalRequests w cfg)
  | .acquire i => decide ((i : Int) + 1 < totalRequests w cfg)
  | _ => false

/-- Configuration with one client, two requests and no tolerated failure. -/
def twoRequests : config :=
  { BaseURL := "http://tiles.example", NClients := 1, NRequests := 2, MaxFailsPerClient := 0 }

/-- Network in which request number 1 fails at every attempt and every other
request is answered with status 200. -/
def secondFails : Nat → Nat → Outcome :=
  fun req _ => if req = 1 then .err else .resp 200

/-- Schedule of `urlRequests twoRequests` under `secondFails`: request 0 is
dispatched and finishes, request 1 is dispatched, the loop ends, request 1
fails and finishes, `wg.Wait()` returns. -/
def secondFailsSchedule : List Actor :=
  [.coordinator, .coordinator, .task 0, .task 0, .task 0,
   .coordinator, .coordinator, .coordinator,
   .task 1, .task 1, .task 1, .task 1, .task 1, .coordinator]

/-- Schedule of `urlRequests singleConfig` under `allErr`: the only request is
dispatched, the loop ends, the request fails and finishes, `wg.Wait()`
returns. -/
def singleFailsSchedule : List Actor :=
  [.coordinator, .coordinator, .coordinator,
   .task 0, .task 0, .task 0, .task 0, .task 0, .coordinator]

/-- State of `urlRequests twoRequests` under `allErr` once request 0 has
failed and given its client back: the coordinator is at the top of
iteration 1 and `nFails` is 1. -/
def failureRecorded : State :=
  { clients := [0]
    tasks := [{ req := 0, client := 0, pc := .signal, incs := 1, sent := 1, dones := 0 }]
    nFails := 1, wg := 2, phase := .dispatch 1 }
/-- The task has read `nFails` and not yet written it back. -/
def TaskPc.isStore : TaskPc → Bool
  | .store _ => true
  | _ => false

/-- Number of tasks in the middle of `nFails++`. -/
def midIncrement (s : State) : Nat :=
  (s.tasks.filter (fun t => t.pc.isStore)).length

/-- Run a schedule as `exec` does, but only as long as the increments of
`nFails` do not overlap: in every state visited at most one task is between
its read and its write of the counter. -/
def execSerial (w : Workload) (cfg : config) (env : Nat → Nat → Outcome) :
    List Actor → State → Option State
  | [], s => some s
  | a :: rest, s =>
    match step w cfg env a s with
    | none => none
    | some t => if midIncrement t ≤ 1 then execSerial w cfg env rest t else none

/-- Counter and pending reads agree with the increments done so far. -/
def Serial (s : State) : Prop :=
  s.nFails = (incsTotal s : Int) ∧ ∀ t ∈ s.tasks, ∀ v, t.pc = .store v → v = s.nFails

/-- A configuration whose product `NClients * MaxFailsPerClient` is `2 ^ 63`. -/
def overflowTolerance : config :=
  { BaseURL := "http://tiles.example", NClients := 2, NRequests := 1,
    MaxFailsPerClient := 4611686018427387904 }
/-- A configuration with `2 ^ 31` requests: the request count fits a Go `int`
but not the 32-bit counter of the WaitGroup. -/
def counterOverflow : config :=
  { BaseURL := "http://tiles.example", NClients := 1, NRequests := 2147483648,
    MaxFailsPerClient := 1 }
/-- Network in which requests 0 and 1 fail at every attempt and every other
request is answered with status 200. -/
def firstTwoFail : Nat → Nat → Outcome :=
  fun req _ => if req < 2 then .err else .resp 200

/-- Schedule of `urlRequests sampleConfig`: both requests are dispatched, both
tasks get an error from `r.Run`, both read `nFails`, both write it, both
give their client back and signal, and `wg.Wait()` returns. -/
def lostUpdateSchedule : List Actor :=
  [.coordinator, .coordinator, .coordinator, .coordinator, .coordinator,
   .task 0, .task 1, .task 0, .task 1, .task 0, .task 1,
   .task 0, .task 0, .task 1, .task 1, .coordinator]

/-- Schedule of `imgRequests sampleConfig`: the first two requests are
dispatched and interleave their `nFails++` as in `lostUpdateSchedule`, then
each of the remaining 62 requests is dispatched and runs to its end. -/
def lostUpdateScheduleImg : List Actor :=
  [.coordinator, .coordinator, .coordinator, .coordinator,
   .task 0, .task 1, .task 0, .task 1, .task 0, .task 1,
   .task 0, .task 0, .task 1, .task 1]
  ++ (List.range 62).flatMap
    (fun i => [Actor.coordinator, Actor.coordinator, Actor.task (i + 2), Actor.task (i + 2),
      Actor.task (i + 2)])
  ++ [Actor.coordinator, Actor.coordinator]

/-! ## Basic facts about the machine -/

theorem list_split {α : Type} {l : List α} {j : Nat} {t : α} (h : l[j]? = some t) :
    ∃ pre post, l = pre ++ t :: post ∧ pre.length = j ∧
      ∀ t', l.set j t' = pre ++ t' :: post := by
  induction l generalizing j with
  | nil => simp at h
  | cons x xs ih =>
    cases j with
    | zero =>
      simp at h
      subst h
      exact ⟨[], xs, rfl, rfl, fun _ => rfl⟩
    | succ j =>
      simp at h
      obtain ⟨pre, post, h1, h2, h3⟩ := ih h
      refine ⟨x :: pre, post, by simp [h1], by simp [h2], fun t' => ?_⟩
      simp [h3]

theorem taskStep_cases {cfg : config} {env : Nat → Nat → Outcome} {j : Nat} {s s' : State}
    (h : taskStep cfg env j s = some s') :
    s.phase.alive = true ∧ ∃ pre t post, s.tasks = pre ++ t :: post ∧ pre.length = j ∧
      ((t.pc = .run ∧ outcome env t.req = .err ∧
          s' = { s with tasks := pre ++ { t with pc := .load } :: post }) ∨
       (t.pc = .run ∧ (∃ st, outcome env t.req = .resp st ∧ st ≠ 200) ∧
          s' = { s with phase := .fatal }) ∨
       (t.pc = .run ∧ outcome env t.req = .resp 200 ∧
          s' = { s with tasks := pre ++ { t with pc := .release } :: post }) ∨
       (t.pc = .load ∧
          s' = { s with tasks := pre ++ { t with pc := .store s.nFails } :: post }) ∨
       (∃ v, t.pc = .store v ∧
          s' = { s with tasks := pre ++ { t with pc := .release, incs := t.incs + 1 } :: post,
                        nFails := wrapInt (v + 1) }) ∨
       (t.pc = .release ∧ s.clients.length < poolSize cfg ∧
          s' = { s with clients := s.clients ++ [t.client],
                        tasks := pre ++ { t with pc := .signal, sent := t.sent + 1 } :: post }) ∨
       (t.pc = .signal ∧ wrapInt32 (s.wg - 1) < 0 ∧ s' = { s with phase := .panicked }) ∨
       (t.pc = .signal ∧ 0 ≤ wrapInt32 (s.wg - 1) ∧
          s' = { s with tasks := pre ++ { t with pc := .finished, dones := t.dones + 1 } :: post,
                        wg := wrapInt32 (s.wg - 1) })) := by
  unfold taskStep at h
  split at h
  next ha =>
    refine ⟨ha, ?_⟩
    split at h
    · simp at h
    next t ht =>
      obtain ⟨pre, post, h1, h2, h3⟩ := list_split ht
      refine ⟨pre, t, post, h1, h2, ?_⟩
      simp only [h3] at h
      split at h
      next hpc =>
        split at h
        next ho =>
          left
          exact ⟨hpc, ho, by simpa using h.symm⟩
        next st ho =>
          split at h
          next hst =>
            right; left
            exact ⟨hpc, ⟨st, ho, hst⟩, by simpa using h.symm⟩
          next hst =>
            right; right; left
            simp at hst
            subst hst
            exact ⟨hpc, ho, by simpa using h.symm⟩
      next hpc =>
        right; right; right; left
        exact ⟨hpc, by simpa using h.symm⟩
      next v hpc =>
        right; right; right; right; left
        exact ⟨v, hpc, by simpa using h.symm⟩
      next hpc =>
        split at h
        next hc =>
          right; right; right; right; right; left
          exact ⟨hpc, hc, by simpa using h.symm⟩
        next hc => simp at h
      next hpc =>
        split at h
        next hw =>
          right; right; right; right; right; right; left
          exact ⟨hpc, hw, by simpa using h.symm⟩
        next hw =>
          right; right; right; right; right; right; right
          exact ⟨hpc, by omega, by simpa using h.symm⟩
      next hpc => simp at h
  next => simp at h

theorem coordStep_cases {w : Workload} {cfg : config} {s s' : State}
    (h : coordStep w cfg s = some s') :
    (∃ i, s.phase = .dispatch i ∧ (i : Int) < totalRequests w cfg ∧ s.nFails > maxFails cfg ∧
        s' = { s with phase := .aborted }) ∨
    (∃ i, s.phase = .dispatch i ∧ (i : Int) < totalRequests w cfg ∧ ¬ s.nFails > maxFails cfg ∧
        s' = { s with phase := .acquire i }) ∨
    (∃ i, s.phase = .dispatch i ∧ ¬ (i : Int) < totalRequests w cfg ∧
        s' = { s with phase := .draining }) ∨
    (∃ i c rest, s.phase = .acquire i ∧ s.clients = c :: rest ∧
        s' = { s with
          clients := rest
          tasks := s.tasks ++ [{ req := i, client := c, pc := .run, incs := 0, sent := 0, dones := 0 }]
          phase := .dispatch (i + 1) }) ∨
    (s.phase = .draining ∧ s.wg = 0 ∧ totalRequests w cfg = 0 ∧
        s' = { s with phase := .panicked }) ∨
    (s.phase = .draining ∧ s.wg = 0 ∧ totalRequests w cfg ≠ 0 ∧
        s' = { s with phase := .completed }) := by
  unfold coordStep at h
  split at h
  next i hp =>
    split at h
    next hi =>
      split at h
      next hf => left; exact ⟨i, hp, hi, hf, by simpa using h.symm⟩
      next hf => right; left; exact ⟨i, hp, hi, hf, by simpa using h.symm⟩
    next hi => right; right; left; exact ⟨i, hp, hi, by simpa using h.symm⟩
  next i hp =>
    split at h
    next => simp at h
    next c rest hc =>
      right; right; right; left
      exact ⟨i, c, rest, hp, hc, by simpa using h.symm⟩
  next hp =>
    split at h
    next hw =>
      split at h
      next ht => right; right; right; right; left; exact ⟨hp, hw, ht, by simpa using h.symm⟩
      next ht => right; right; right; right; right; exact ⟨hp, hw, ht, by simpa using h.symm⟩
    next hw => simp at h
  next => simp at h

theorem wrapInt32_lt (x : Int) : wrapInt32 x < counterLimit := by
  unfold wrapInt32 counterLimit
  omega

theorem wrapInt32_of_range {x : Int} (h0 : 0 ≤ x) (h1 : x < counterLimit) :
    wrapInt32 x = x := by
  unfold wrapInt32 counterLimit at *
  omega

theorem inv_init {w : Workload} {cfg : config} (env : Nat → Nat → Outcome)
    (hP : 0 ≤ cfg.NClients) (hC : 0 ≤ wrapInt32 (totalRequests w cfg)) :
    Inv w cfg env (init w cfg) := by
  have h1 : ¬ cfg.NClients < 0 := by omega
  have h2 : ¬ wrapInt32 (totalRequests w cfg) < 0 := by omega
  have h3 := wrapInt32_lt (totalRequests w cfg)
  constructor
  · exact hP
  · exact hC
  · simp only [init, h1, h2, if_false]
    exact ⟨hC, h3⟩
  · simp [init, h1, h2]
  · simp [init, h1, h2, borrowed]
  · intro hfit
    simp only [init, h1, h2, if_false, finishedCount, List.filter_nil, List.length_nil]
    rw [wrapInt32_of_range hfit.1 hfit.2]
    simp
  · simp [init, h1, h2]
  · simp [init, h1, h2, PhaseOK]
  · simp [init, h1, h2]
  · simp [init, h1, h2, incsTotal]
  · simp [init, h1, h2]

theorem inv_phase {w : Workload} {cfg : config} {env : Nat → Nat → Outcome} {s : State}
    (hI : Inv w cfg env s) (ph : Phase) (hph : PhaseOK w cfg { s with phase := ph }) :
    Inv w cfg env { s with phase := ph } :=
  { nonneg := hI.nonneg, counter := hI.counter, wgRange := hI.wgRange, reqs := hI.reqs,
    pool := hI.pool, wg := hI.wg, task := hI.task, phase := hph,
    failsNonneg := hI.failsNonneg, failsLe := hI.failsLe, stored := hI.stored }

theorem inv_coord {w : Workload} {cfg : config} {env : Nat → Nat → Outcome} {s s' : State}
    (hI : Inv w cfg env s) (h : coordStep w cfg s = some s') : Inv w cfg env s' := by
  have hph := hI.phase
  rcases coordStep_cases h with ⟨i, hp, hi, _, rfl⟩ | ⟨i, hp, hi, _, rfl⟩ | ⟨i, hp, hi, rfl⟩ |
    ⟨i, c, rest, hp, hc, rfl⟩ | ⟨hp, hw, ht, rfl⟩ | ⟨hp, hw, ht, rfl⟩
  · refine inv_phase hI _ ?_
    simp only [PhaseOK, hp] at hph ⊢
    omega
  · refine inv_phase hI _ ?_
    simp only [PhaseOK, hp] at hph ⊢
    exact ⟨hph.1, hi⟩
  · refine inv_phase hI _ ?_
    simp only [PhaseOK, hp] at hph ⊢
    omega
  · simp only [PhaseOK, hp] at hph
    obtain ⟨hlen, hlt⟩ := hph
    have hpool := hI.pool
    rw [hc] at hpool
    constructor
    · exact hI.nonneg
    · exact hI.counter
    · exact hI.wgRange
    · simp [hI.reqs, hlen, List.range_succ]
    · have hrun : TaskPc.holds .run = true := rfl
      simp only [borrowed, List.filter_append, List.map_append, List.filter_cons, hrun,
        List.filter_nil, List.map_cons, List.map_nil, if_true]
      refine List.Perm.trans ?_ hpool
      rw [← List.append_assoc]
      refine List.Perm.trans List.perm_append_comm ?_
      simp [borrowed]
    · have hrun : TaskPc.isFinished .run = false := rfl
      intro hfit
      simpa [finishedCount, List.filter_append, hrun] using hI.wg hfit
    · intro t ht
      simp only [List.mem_append, List.mem_singleton] at ht
      rcases ht with ht | rfl
      · exact hI.task t ht
      · simp [TaskOK]
    · simp only [PhaseOK, List.length_append, List.length_singleton, hlen, true_and]
      omega
    · exact hI.failsNonneg
    · simpa [incsTotal] using hI.failsLe
    · intro t ht v hv
      simp only [List.mem_append, List.mem_singleton] at ht
      rcases ht with ht | rfl
      · simpa [incsTotal] using hI.stored t ht v hv
      · simp at hv
  · refine inv_phase hI _ ?_
    simp only [PhaseOK, hp] at hph ⊢
    exact ⟨by omega, fun _ => ht⟩
  · refine inv_phase hI _ ?_
    simp only [PhaseOK, hp] at hph ⊢
    exact ⟨hph, hw, ht⟩

theorem phaseOK_length_le {w : Workload} {cfg : config} {s : State} (h : PhaseOK w cfg s) :
    s.tasks.length ≤ (totalRequests w cfg).toNat := by
  unfold PhaseOK at h
  split at h <;> omega

theorem phaseOK_of_eq {w : Workload} {cfg : config} {s s' : State}
    (hp : s'.phase = s.phase) (hl : s'.tasks.length = s.tasks.length)
    (ha : s.phase.alive = true) (h : PhaseOK w cfg s) : PhaseOK w cfg s' := by
  unfold PhaseOK at *
  rw [hp, hl]
  cases hs : s.phase <;> simp_all [Phase.alive]

theorem phaseOK_dead {w : Workload} {cfg : config} {s : State} (ph : Phase)
    (hph : ph = .fatal ∨ ph = .aborted) (h : PhaseOK w cfg s) :
    PhaseOK w cfg { s with phase := ph } := by
  have := phaseOK_length_le h
  rcases hph with rfl | rfl <;> simpa [PhaseOK] using this

theorem incs_sum_le_length (env : Nat → Nat → Outcome) (l : List Task)
    (h : ∀ t ∈ l, TaskOK env t) : (l.map (fun t => t.incs)).sum ≤ l.length := by
  induction l with
  | nil => simp
  | cons x xs ih =>
    have hx : x.incs ≤ 1 := by
      have := h x (by simp)
      unfold TaskOK Task.exitOK at this
      split at this <;> omega
    have := ih (fun t ht => h t (by simp [ht]))
    simp only [List.map_cons, List.sum_cons, List.length_cons]
    omega

theorem wrapInt_of_range {x : Int} (h0 : 0 ≤ x) (h1 : x < intLimit) : wrapInt x = x := by
  unfold wrapInt intLimit at *
  omega

theorem filter_map_replace {α β : Type} (p : α → Bool) (f : α → β) (pre post : List α) (t : α)
    {t' : α}
    (hp : p t' = p t) (hf : f t' = f t) :
    ((pre ++ t' :: post).filter p).map f = ((pre ++ t :: post).filter p).map f := by
  simp only [List.filter_append, List.filter_cons, hp, List.map_append]
  cases p t <;> simp [hf]

theorem filter_length_replace {α : Type} (p : α → Bool) (pre post : List α) (t : α) {t' : α}
    (hp : p t' = p t) :
    ((pre ++ t' :: post).filter p).length = ((pre ++ t :: post).filter p).length := by
  simp only [List.filter_append, List.filter_cons, hp]
  cases p t <;> simp

theorem inv_replace {w : Workload} {cfg : config} {env : Nat → Nat → Outcome} {s : State}
    (hI : Inv w cfg env s) (ha : s.phase.alive = true) {pre post : List Task} {t t' : Task}
    (hts : s.tasks = pre ++ t :: post) (cl : List Nat) (nf wg : Int)
    (hreq : t'.req = t.req) (hok : TaskOK env t') (hincs : t.incs ≤ t'.incs)
    (hnf0 : 0 ≤ nf)
    (hnf : nf ≤ (((pre ++ t' :: post).map (fun t => t.incs)).sum : Nat))
    (hstv : ∀ v, t'.pc = .store v →
      0 ≤ v ∧ v ≤ (((pre ++ t' :: post).map (fun t => t.incs)).sum : Nat))
    (hpool : (cl ++ ((pre ++ t' :: post).filter (fun t => t.pc.holds)).map
      (fun t => t.client)).Perm (List.range (poolSize cfg)))
    (hrange : 0 ≤ wg ∧ wg < counterLimit)
    (hwg : counterFits w cfg →
      wg + (((pre ++ t' :: post).filter (fun t => t.pc.isFinished)).length : Nat) =
        totalRequests w cfg) :
    Inv w cfg env { s with clients := cl, tasks := pre ++ t' :: post, nFails := nf, wg := wg } := by
  have hmono : ((pre ++ t :: post).map (fun t => t.incs)).sum ≤
      ((pre ++ t' :: post).map (fun t => t.incs)).sum := by
    simp only [List.map_append, List.map_cons, List.sum_append, List.sum_cons]
    omega
  constructor
  · exact hI.nonneg
  · exact hI.counter
  · exact hrange
  · have := hI.reqs
    rw [hts] at this
    simpa [hreq] using this
  · exact hpool
  · exact hwg
  · intro x hx
    simp only [List.mem_append, List.mem_cons] at hx
    rcases hx with hx | rfl | hx
    · exact hI.task x (by rw [hts]; simp [hx])
    · exact hok
    · exact hI.task x (by rw [hts]; simp [hx])
  · exact @phaseOK_of_eq w cfg s _ rfl (by simp [hts]) ha hI.phase
  · exact hnf0
  · exact hnf
  · intro x hx v hv
    simp only [List.mem_append, List.mem_cons] at hx
    have hold : ∀ y ∈ s.tasks, y.pc = .store v →
        0 ≤ v ∧ v ≤ (((pre ++ t' :: post).map (fun t => t.incs)).sum : Nat) := by
      intro y hy hyv
      have := hI.stored y hy v hyv
      simp only [incsTotal, hts] at this
      refine ⟨this.1, ?_⟩
      have h2 : ((((pre ++ t :: post).map (fun t => t.incs)).sum : Nat) : Int) ≤
          (((pre ++ t' :: post).map (fun t => t.incs)).sum : Nat) := by exact_mod_cast hmono
      omega
    rcases hx with hx | rfl | hx
    · exact hold x (by rw [hts]; simp [hx]) hv
    · exact hstv v hv
    · exact hold x (by rw [hts]; simp [hx]) hv

theorem wrapInt_lt (x : Int) : wrapInt x < intLimit := by
  unfold wrapInt intLimit
  omega

theorem totalRequests_lt (w : Workload) (cfg : config) : totalRequests w cfg < intLimit := by
  cases w <;> exact wrapInt_lt _

theorem wrapInt32_pred {x : Int} (h0 : 0 ≤ x) (h1 : x < counterLimit) :
    (wrapInt32 (x - 1) < 0 → x = 0) ∧ (0 ≤ wrapInt32 (x - 1) → wrapInt32 (x - 1) = x - 1) := by
  unfold wrapInt32 counterLimit at *
  omega

theorem counter_pos {w : Workload} {cfg : config} {env : Nat → Nat → Outcome} {s : State}
    {pre post : List Task} {t : Task} (hI : Inv w cfg env s) (hfit : counterFits w cfg)
    (hts : s.tasks = pre ++ t :: post) (hpc : t.pc.isFinished = false) : 1 ≤ s.wg := by
  have hwg := hI.wg hfit
  have hlen := phaseOK_length_le hI.phase
  have hpre := List.length_filter_le (fun t : Task => t.pc.isFinished) pre
  have hpost := List.length_filter_le (fun t : Task => t.pc.isFinished) post
  simp only [finishedCount, hts, List.filter_append, List.filter_cons, hpc, List.length_append,
    Bool.false_eq_true, if_false] at hwg
  simp only [hts, List.length_append, List.length_cons] at hlen
  have := hfit.1
  omega

theorem inv_task {w : Workload} {cfg : config} {env : Nat → Nat → Outcome} {j : Nat}
    {s s' : State} (hI : Inv w cfg env s) (h : taskStep cfg env j s = some s') :
    Inv w cfg env s' := by
  obtain ⟨ha, pre, t, post, hts, -, hc⟩ := taskStep_cases h
  have hpool := hI.pool
  have hwg := hI.wg
  have hnle := hI.failsLe
  simp only [borrowed, finishedCount, incsTotal, hts] at hpool hwg hnle
  have hTt : TaskOK env t := hI.task t (by rw [hts]; simp)
  have hn0 := hI.failsNonneg
  rcases hc with ⟨hpc, ho, rfl⟩ | ⟨hpc, -, rfl⟩ | ⟨hpc, ho, rfl⟩ | ⟨hpc, rfl⟩ | ⟨v, hpc, rfl⟩ |
    ⟨hpc, hlen, rfl⟩ | ⟨hpc, hw, rfl⟩ | ⟨hpc, hw, rfl⟩
  · -- `r.Run` returned an error
    simp only [TaskOK, hpc] at hTt
    refine inv_replace hI ha hts s.clients s.nFails s.wg rfl ?_ (le_refl _) hn0 ?_ ?_ ?_
      hI.wgRange ?_
    · simp [TaskOK, ho, hTt]
    · simpa using hnle
    · intro v hv; simp at hv
    · rw [filter_map_replace _ _ pre post t]
      · exact hpool
      · simp [hpc, TaskPc.holds]
      · rfl
    · intro hfit
      rw [filter_length_replace _ pre post t]
      · exact hwg hfit
      · simp [hpc, TaskPc.isFinished]
  · exact inv_phase hI _ (phaseOK_dead _ (Or.inl rfl) hI.phase)
  · -- `r.Run` returned a response with status 200
    simp only [TaskOK, hpc] at hTt
    refine inv_replace hI ha hts s.clients s.nFails s.wg rfl ?_ (le_refl _) hn0 ?_ ?_ ?_
      hI.wgRange ?_
    · simp [TaskOK, Task.exitOK, ho, hTt]
    · simpa using hnle
    · intro v hv; simp at hv
    · rw [filter_map_replace _ _ pre post t]
      · exact hpool
      · simp [hpc, TaskPc.holds]
      · rfl
    · intro hfit
      rw [filter_length_replace _ pre post t]
      · exact hwg hfit
      · simp [hpc, TaskPc.isFinished]
  · -- read of `nFails`
    simp only [TaskOK, hpc] at hTt
    refine inv_replace hI ha hts s.clients s.nFails s.wg rfl ?_ (le_refl _) hn0 ?_ ?_ ?_
      hI.wgRange ?_
    · simp [TaskOK, hTt]
    · simpa using hnle
    · intro v hv
      simp only [TaskPc.store.injEq] at hv
      subst hv
      exact ⟨hn0, by simpa using hnle⟩
    · rw [filter_map_replace _ _ pre post t]
      · exact hpool
      · simp [hpc, TaskPc.holds]
      · rfl
    · intro hfit
      rw [filter_length_replace _ pre post t]
      · exact hwg hfit
      · simp [hpc, TaskPc.isFinished]
  · -- write of `nFails`
    simp only [TaskOK, hpc] at hTt
    have hv := hI.stored t (by rw [hts]; simp) v hpc
    simp only [incsTotal, hts] at hv
    have hlen := phaseOK_length_le hI.phase
    have hlim := totalRequests_lt w cfg
    have hpre := incs_sum_le_length env pre
      (fun x hx => hI.task x (by rw [hts]; simp [hx]))
    have hpost := incs_sum_le_length env post
      (fun x hx => hI.task x (by rw [hts]; simp [hx]))
    have hsum : ((pre ++ t :: post).map (fun t => t.incs)).sum =
        (pre.map (fun t => t.incs)).sum + (post.map (fun t => t.incs)).sum := by
      simp [hTt.2.1]
    have hsum' : ((pre ++ { t with pc := TaskPc.release, incs := t.incs + 1 } :: post).map
        (fun t => t.incs)).sum =
        (pre.map (fun t => t.incs)).sum + (post.map (fun t => t.incs)).sum + 1 := by
      simp [hTt.2.1]
      omega
    rw [hsum] at hv
    simp only [hts, List.length_append, List.length_cons] at hlen
    have hwrap : wrapInt (v + 1) = v + 1 := wrapInt_of_range (by omega) (by omega)
    refine inv_replace hI ha hts s.clients _ s.wg rfl ?_ (by simp) ?_ ?_ ?_ ?_ hI.wgRange ?_
    · simp [TaskOK, Task.exitOK, hTt]
    · rw [hwrap]; omega
    · rw [hwrap, hsum']
      omega
    · intro v hv; simp at hv
    · rw [filter_map_replace _ _ pre post t]
      · exact hpool
      · simp [hpc, TaskPc.holds]
      · rfl
    · intro hfit
      rw [filter_length_replace _ pre post t]
      · exact hwg hfit
      · simp [hpc, TaskPc.isFinished]
  · -- `clients <- client`
    simp only [TaskOK, hpc] at hTt
    refine inv_replace hI ha hts _ s.nFails s.wg rfl ?_ (le_refl _) hn0 ?_ ?_ ?_ hI.wgRange ?_
    · simp [TaskOK, hTt]
      simpa [Task.exitOK] using hTt.1
    · simpa using hnle
    · intro v hv; simp at hv
    · have h1 : t.pc.holds = true := by rw [hpc]; rfl
      have h2 : TaskPc.holds .signal = false := rfl
      simp only [List.filter_append, List.filter_cons, h1, h2, List.map_append, List.map_cons,
        if_true] at hpool ⊢
      refine List.Perm.trans ?_ hpool
      simp only [List.append_assoc, Bool.false_eq_true, if_false]
      refine List.Perm.append_left _ ?_
      simp only [List.singleton_append]
      exact List.perm_middle.symm
    · intro hfit
      rw [filter_length_replace _ pre post t]
      · exact hwg hfit
      · simp [hpc, TaskPc.isFinished]
  · -- `wg.Done()` on a counter that is already zero
    refine inv_phase hI _ ?_
    have hlen := phaseOK_length_le hI.phase
    refine ⟨hlen, fun hfit => ?_⟩
    exfalso
    have h1 : t.pc.isFinished = false := by rw [hpc]; rfl
    have hpos := counter_pos hI hfit hts h1
    have := (wrapInt32_pred hI.wgRange.1 hI.wgRange.2).1 hw
    omega
  · -- `wg.Done()`
    simp only [TaskOK, hpc] at hTt
    have hdec := (wrapInt32_pred hI.wgRange.1 hI.wgRange.2).2 hw
    refine inv_replace hI ha hts s.clients s.nFails _ rfl ?_ (le_refl _) hn0 ?_ ?_ ?_
      ⟨hw, wrapInt32_lt _⟩ ?_
    · simp [TaskOK, hTt]
      simpa [Task.exitOK] using hTt.1
    · simpa using hnle
    · intro v hv; simp at hv
    · rw [filter_map_replace _ _ pre post t]
      · exact hpool
      · simp [hpc, TaskPc.holds]
      · rfl
    · intro hfit
      have hwg' := hwg hfit
      have h1 : t.pc.isFinished = false := by rw [hpc]; rfl
      have h2 : TaskPc.isFinished .finished = true := rfl
      rw [hdec]
      simp only [List.filter_append, List.filter_cons, h1, h2, List.length_append,
        List.length_cons, if_true] at hwg' ⊢
      simp only [Bool.false_eq_true, if_false] at hwg'
      push_cast at hwg' ⊢
      omega

theorem inv_step {w : Workload} {cfg : config} {env : Nat → Nat → Outcome} {a : Actor}
    {s t : State} (hI : Inv w cfg env s) (h : step w cfg env a s = some t) :
    Inv w cfg env t := by
  cases a with
  | coordinator => exact inv_coord hI h
  | task j => exact inv_task hI h

theorem step_dead {w : Workload} {cfg : config} {env : Nat → Nat → Outcome} (a : Actor)
    {s : State} (h : s.phase.alive = false) : step w cfg env a s = none := by
  cases a with
  | coordinator =>
    simp only [step, coordStep]
    cases hp : s.phase <;> simp_all [Phase.alive]
  | task j => simp [step, taskStep, h]

theorem init_cases (w : Workload) (cfg : config) :
    (init w cfg).phase = .panicked ∨
      (0 ≤ cfg.NClients ∧ 0 ≤ wrapInt32 (totalRequests w cfg)) := by
  unfold init
  split
  · left; rfl
  · split
    · left; rfl
    · right; omega

theorem reach_panicked {w : Workload} {cfg : config} {env : Nat → Nat → Outcome} {s : State}
    (hp : (init w cfg).phase = .panicked) (h : Reach w cfg env s) : s = init w cfg := by
  induction h with
  | start => rfl
  | next a _ hs ih =>
    subst ih
    rw [step_dead a (by rw [hp]; rfl)] at hs
    simp at hs

theorem reach_inv {w : Workload} {cfg : config} {env : Nat → Nat → Outcome} {s : State}
    (hP : 0 ≤ cfg.NClients) (hT : 0 ≤ wrapInt32 (totalRequests w cfg))
    (h : Reach w cfg env s) : Inv w cfg env s := by
  induction h with
  | start => exact inv_init env hP hT
  | next a _ hs ih => exact inv_step ih hs

theorem reach_cases {w : Workload} {cfg : config} {env : Nat → Nat → Outcome} {s : State}
    (h : Reach w cfg env s) :
    (s = init w cfg ∧ (init w cfg).phase = .panicked) ∨ Inv w cfg env s := by
  rcases init_cases w cfg with hp | ⟨hP, hT⟩
  · exact Or.inl ⟨reach_panicked hp h, hp⟩
  · exact Or.inr (reach_inv hP hT h)

theorem exec_reach {w : Workload} {cfg : config} {env : Nat → Nat → Outcome}
    (sched : List Actor) {s t : State} (hs : Reach w cfg env s)
    (h : exec w cfg env sched s = some t) : Reach w cfg env t := by
  induction sched generalizing s with
  | nil =>
    simp only [exec, Option.some.injEq] at h
    exact h ▸ hs
  | cons a rest ih =>
    simp only [exec] at h
    split at h
    · simp at h
    next u hu => exact ih (Reach.next a hs hu) h

theorem reach_iff_exec {w : Workload} {cfg : config} {env : Nat → Nat → Outcome} {s : State} :
    Reach w cfg env s ↔ ∃ sched, exec w cfg env sched (init w cfg) = some s := by
  constructor
  · intro h
    induction h with
    | start => exact ⟨[], rfl⟩
    | @next s t a _ hs ih =>
      obtain ⟨sched, hsched⟩ := ih
      refine ⟨sched ++ [a], ?_⟩
      have key : ∀ (l : List Actor) (u : State), exec w cfg env l u = some s →
          exec w cfg env (l ++ [a]) u = some t := by
        intro l
        induction l with
        | nil =>
          intro u hu
          simp only [exec, Option.some.injEq] at hu
          subst hu
          simp [exec, hs]
        | cons b l ihl =>
          intro u hu
          simp only [exec, List.cons_append] at hu ⊢
          split at hu
          · simp at hu
          next v hv => exact ihl v hu
      exact key sched _ hsched
  · rintro ⟨sched, h⟩
    exact exec_reach sched Reach.start h

theorem pool_length {w : Workload} {cfg : config} {env : Nat → Nat → Outcome} {s : State}
    (hI : Inv w cfg env s) : s.clients.length + (borrowed s).length = poolSize cfg := by
  have := hI.pool.length_eq
  simpa using this

theorem holds_borrowed_pos {s : State} {t : Task} (ht : t ∈ s.tasks) (hh : t.pc.holds = true) :
    0 < (borrowed s).length := by
  have hmem : t.client ∈ borrowed s := by
    simp only [borrowed, List.mem_map, List.mem_filter]
    exact ⟨t, ⟨ht, hh⟩, rfl⟩
  exact List.length_pos_of_mem hmem

theorem task_enabled {w : Workload} {cfg : config} {env : Nat → Nat → Outcome} {s : State}
    {j : Nat} {t : Task} (hI : Inv w cfg env s) (ha : s.phase.alive = true)
    (ht : s.tasks[j]? = some t) (hpc : t.pc ≠ .finished) :
    ∃ s', taskStep cfg env j s = some s' := by
  have hmem : t ∈ s.tasks := List.getElem?_mem ht
  unfold taskStep
  simp only [ha, if_true, ht]
  cases hp : t.pc with
  | run =>
    simp only
    cases outcome env t.req with
    | err => exact ⟨_, rfl⟩
    | resp st =>
      simp only
      split <;> exact ⟨_, rfl⟩
  | load => exact ⟨_, rfl⟩
  | store v => exact ⟨_, rfl⟩
  | release =>
    have h1 := pool_length hI
    have h2 := holds_borrowed_pos hmem (by rw [hp]; rfl)
    have h3 : s.clients.length < poolSize cfg := by omega
    simp only [h3, if_true]
    exact ⟨_, rfl⟩
  | signal =>
    simp only
    split <;> exact ⟨_, rfl⟩
  | finished => exact absurd hp hpc

theorem exists_unfinished {l : List Task}
    (h : (l.filter (fun t => t.pc.isFinished)).length ≠ l.length) :
    ∃ t ∈ l, t.pc ≠ .finished := by
  by_contra hcon
  push_neg at hcon
  apply h
  rw [List.filter_eq_self.mpr]
  intro t ht
  simp [hcon t ht, TaskPc.isFinished]

theorem totalRequests_pos_pool {w : Workload} {cfg : config} (hP : 0 ≤ cfg.NClients)
    (hT : 0 < totalRequests w cfg) : 0 < poolSize cfg := by
  have hne : cfg.NClients ≠ 0 := by
    intro h0
    cases w <;> simp [totalRequests, h0, wrapInt, intLimit] at hT
  unfold poolSize
  omega

theorem step_enabled {w : Workload} {cfg : config} {env : Nat → Nat → Outcome} {s : State}
    (hI : Inv w cfg env s) (hfit : s.phase = .draining → counterFits w cfg)
    (ha : s.phase.alive = true) :
    ∃ a t, step w cfg env a s = some t := by
  have hph := hI.phase
  cases hp : s.phase with
  | dispatch i =>
    refine ⟨.coordinator, ?_⟩
    simp only [step, coordStep, hp]
    split
    · split <;> exact ⟨_, rfl⟩
    · exact ⟨_, rfl⟩
  | acquire i =>
    cases hc : s.clients with
    | cons c rest =>
      refine ⟨.coordinator, ?_⟩
      simp only [step, coordStep, hp, hc]
      exact ⟨_, rfl⟩
    | nil =>
      simp only [PhaseOK, hp] at hph
      have hpos := totalRequests_pos_pool hI.nonneg (by omega : 0 < totalRequests w cfg)
      have hlen := pool_length hI
      rw [hc] at hlen
      simp only [List.length_nil, zero_add] at hlen
      have hne : borrowed s ≠ [] := by
        intro h0
        rw [h0] at hlen
        simp at hlen
        omega
      obtain ⟨c, hcmem⟩ := List.exists_mem_of_ne_nil _ hne
      simp only [borrowed, List.mem_map, List.mem_filter] at hcmem
      obtain ⟨t, ⟨htmem, hh⟩, -⟩ := hcmem
      obtain ⟨j, hj⟩ := List.getElem?_of_mem htmem
      have hnf : t.pc ≠ .finished := by
        intro h0
        rw [h0] at hh
        simp [TaskPc.holds] at hh
      obtain ⟨s', hs'⟩ := task_enabled hI ha hj hnf
      exact ⟨.task j, s', hs'⟩
  | draining =>
    by_cases hw : s.wg = 0
    · refine ⟨.coordinator, ?_⟩
      simp only [step, coordStep, hp, hw, if_true]
      split <;> exact ⟨_, rfl⟩
    · simp only [PhaseOK, hp] at hph
      have hwg := hI.wg (hfit hp)
      have hnn := (hfit hp).1
      have hne : (s.tasks.filter (fun t => t.pc.isFinished)).length ≠ s.tasks.length := by
        intro h0
        simp only [finishedCount, h0] at hwg
        omega
      obtain ⟨t, htmem, hnf⟩ := exists_unfinished hne
      obtain ⟨j, hj⟩ := List.getElem?_of_mem htmem
      obtain ⟨s', hs'⟩ := task_enabled hI ha hj hnf
      exact ⟨.task j, s', hs'⟩
  | completed => simp [hp, Phase.alive] at ha
  | aborted => simp [hp, Phase.alive] at ha
  | fatal => simp [hp, Phase.alive] at ha
  | panicked => simp [hp, Phase.alive] at ha

theorem alive_rank_lt {w : Workload} {cfg : config} {s : State} (h : PhaseOK w cfg s)
    (ha : s.phase.alive = true) :
    s.phase.rank (totalRequests w cfg).toNat < 2 * (totalRequests w cfg).toNat + 2 := by
  unfold PhaseOK at h
  cases hp : s.phase <;> simp only [hp, Phase.rank, Phase.alive] at h ha ⊢ <;> first | omega | simp at ha

theorem phase_rank_le {w : Workload} {cfg : config} {s : State} (h : PhaseOK w cfg s) :
    s.phase.rank (totalRequests w cfg).toNat ≤ 2 * (totalRequests w cfg).toNat + 2 := by
  unfold PhaseOK at h
  cases hp : s.phase <;> simp only [hp, Phase.rank] at h ⊢ <;> omega

theorem rank_sum_le (l : List Task) : (l.map (fun t => t.pc.rank)).sum ≤ 5 * l.length := by
  induction l with
  | nil => simp
  | cons x xs ih =>
    have hx : x.pc.rank ≤ 5 := by cases x.pc <;> simp [TaskPc.rank]
    simp only [List.map_cons, List.sum_cons, List.length_cons]
    omega

theorem progress_le {w : Workload} {cfg : config} {env : Nat → Nat → Outcome} {s : State}
    (hI : Inv w cfg env s) :
    progress (totalRequests w cfg).toNat s ≤ 7 * (totalRequests w cfg).toNat + 2 := by
  have h1 := phase_rank_le hI.phase
  have h2 := rank_sum_le s.tasks
  have h3 := phaseOK_length_le hI.phase
  unfold progress
  omega

theorem progress_step {w : Workload} {cfg : config} {env : Nat → Nat → Outcome} {a : Actor}
    {s t : State} (hI : Inv w cfg env s) (h : step w cfg env a s = some t) :
    progress (totalRequests w cfg).toNat s < progress (totalRequests w cfg).toNat t := by
  have hph := hI.phase
  cases a with
  | coordinator =>
    simp only [step] at h
    rcases coordStep_cases h with ⟨i, hp, hi, _, rfl⟩ | ⟨i, hp, hi, _, rfl⟩ | ⟨i, hp, hi, rfl⟩ |
      ⟨i, c, rest, hp, hc, rfl⟩ | ⟨hp, hw, ht, rfl⟩ | ⟨hp, hw, ht, rfl⟩ <;>
    simp only [PhaseOK, hp] at hph <;>
    simp only [progress, hp, Phase.rank, List.map_append, List.sum_append, List.map_cons,
      List.map_nil, List.sum_cons, List.sum_nil, TaskPc.rank] <;> omega
  | task j =>
    simp only [step] at h
    obtain ⟨ha, pre, u, post, hts, -, hc⟩ := taskStep_cases h
    have hlt := alive_rank_lt hph ha
    rcases hc with ⟨hpc, ho, rfl⟩ | ⟨hpc, -, rfl⟩ | ⟨hpc, ho, rfl⟩ | ⟨hpc, rfl⟩ | ⟨v, hpc, rfl⟩ |
      ⟨hpc, hlen, rfl⟩ | ⟨hpc, -, rfl⟩ | ⟨hpc, hw, rfl⟩ <;>
    simp only [progress, hts, Phase.rank, List.map_append, List.sum_append, List.map_cons,
      List.sum_cons, TaskPc.rank, hpc] at hlt ⊢ <;> omega

theorem exec_progress {w : Workload} {cfg : config} {env : Nat → Nat → Outcome}
    (sched : List Actor) {s t : State} (hI : Inv w cfg env s)
    (h : exec w cfg env sched s = some t) :
    progress (totalRequests w cfg).toNat s + sched.length ≤
      progress (totalRequests w cfg).toNat t := by
  induction sched generalizing s with
  | nil =>
    simp only [exec, Option.some.injEq] at h
    subst h
    simp
  | cons a rest ih =>
    simp only [exec] at h
    split at h
    · simp at h
    next u hu =>
      have h1 := progress_step hI hu
      have h2 := ih (inv_step hI hu) h
      simp only [List.length_cons]
      omega

theorem exec_length_le {w : Workload} {cfg : config} {env : Nat → Nat → Outcome}
    (sched : List Actor) {s t : State} (hI : Inv w cfg env s)
    (h : exec w cfg env sched s = some t) :
    sched.length ≤ 7 * (totalRequests w cfg).toNat + 2 := by
  have h1 := exec_progress sched hI h
  have h2 : Inv w cfg env t := by
    clear h1
    induction sched generalizing s with
    | nil =>
      simp only [exec, Option.some.injEq] at h
      exact h ▸ hI
    | cons a rest ih =>
      simp only [exec] at h
      split at h
      · simp at h
      next u hu => exact ih (inv_step hI hu) h
  have h3 := progress_le h2
  omega

/-! ## The claims -/

theorem reach_of_exec {w : Workload} {cfg : config} {env : Nat → Nat → Outcome} {s : State}
    (sched : List Actor) (h : exec w cfg env sched (init w cfg) = some s) :
    Reach w cfg env s :=
  exec_reach sched Reach.start h

theorem pool_perm {w : Workload} {cfg : config} {env : Nat → Nat → Outcome} {s : State}
    (h : Reach w cfg env s) : (s.clients ++ borrowed s).Perm (List.range (poolSize cfg)) := by
  rcases reach_cases h with ⟨rfl, -⟩ | hI
  · unfold init
    split
    next hn =>
      have : poolSize cfg = 0 := by unfold poolSize; omega
      simp [borrowed, this]
    next => split <;> simp [borrowed]
  · exact hI.pool

/-- C1 (Client Pool invariant): in every reachable state of a batch the number
of clients borrowed by in-flight tasks plus the number of clients available in
the channel equals the pool size, no client occurs twice among them, and the
clients present are exactly the `NClients` clients the pool was populated
with (none is lost). -/
theorem pool_invariant (w : Workload) (cfg : config) (env : Nat → Nat → Outcome) (s : State)
    (h : Reach w cfg env s) :
    (borrowed s).length + s.clients.length = poolSize cfg ∧
    (s.clients ++ borrowed s).Nodup ∧
    ∀ c, c ∈ s.clients ++ borrowed s ↔ c < poolSize cfg := by
  have hperm := pool_perm h
  refine ⟨?_, ?_, ?_⟩
  · have := hperm.length_eq
    simp only [List.length_append, List.length_range] at this
    omega
  · exact hperm.nodup_iff.mpr (List.nodup_range _)
  · intro c
    rw [hperm.mem_iff, List.mem_range]

theorem pool_invariant_witness :
    Reach .url sampleConfig allOk oneBorrowed ∧
    ((borrowed oneBorrowed).length + oneBorrowed.clients.length = poolSize sampleConfig ∧
     (oneBorrowed.clients ++ borrowed oneBorrowed).Nodup ∧
     ∀ c, c ∈ oneBorrowed.clients ++ borrowed oneBorrowed ↔ c < poolSize sampleConfig) :=
  ⟨reach_of_exec [.coordinator, .coordinator] (by decide),
   pool_invariant .url sampleConfig allOk oneBorrowed
     (reach_of_exec [.coordinator, .coordinator] (by decide))⟩

theorem totalRequests_eq_nominal {w : Workload} {cfg : config}
    (h0 : 0 ≤ nominalRequests w cfg) (h1 : nominalRequests w cfg < intLimit) :
    totalRequests w cfg = nominalRequests w cfg := by
  cases w with
  | url =>
    simp only [totalRequests, nominalRequests] at *
    exact wrapInt_of_range h0 h1
  | img =>
    simp only [totalRequests, nominalRequests] at *
    generalize cfg.NClients * cfg.NRequests = x at *
    have hx : wrapInt x = x := wrapInt_of_range (by omega) (by unfold intLimit at *; omega)
    rw [hx]
    exact wrapInt_of_range h0 h1

theorem nominalRequests_pos (w : Workload) {cfg : config} (hP : 0 < cfg.NClients)
    (hR : 0 < cfg.NRequests) : 0 < nominalRequests w cfg := by
  have h := Int.mul_pos hP hR
  cases w <;> simp only [nominalRequests] <;> omega

/-- C2 (request volume), amended: for a configuration with `0 < P`, `0 < R`
whose request count (`P * R` for `urlRequests`, `P * R * 32` for `imgRequests`)
fits a Go `int`, the dispatch loop launches one task per iteration, numbered
`0, 1, 2, ...`, never more than that count, and a batch that reaches
`wg.Wait()` or completes has launched exactly that count. -/
theorem request_volume (w : Workload) (cfg : config) (env : Nat → Nat → Outcome) (s : State)
    (hP : 0 < cfg.NClients) (hR : 0 < cfg.NRequests)
    (hfit : nominalRequests w cfg < intLimit) (h : Reach w cfg env s) :
    (s.tasks.length : Int) ≤ nominalRequests w cfg ∧
    s.tasks.map (fun t => t.req) = List.range s.tasks.length ∧
    (s.phase = .draining ∨ s.phase = .completed →
      (s.tasks.length : Int) = nominalRequests w cfg) := by
  have hpos := nominalRequests_pos w hP hR
  have heq := totalRequests_eq_nominal (by omega) hfit
  rcases reach_cases h with ⟨rfl, hp⟩ | hI
  · have hnil : (init w cfg).tasks = [] := by
      unfold init
      split
      · rfl
      · split <;> rfl
    refine ⟨?_, ?_, ?_⟩
    · rw [hnil]
      simp only [List.length_nil, Nat.cast_zero]
      omega
    · rw [hnil]
      rfl
    · rw [hp]
      rintro (h1 | h1) <;> cases h1
  · refine ⟨?_, hI.reqs, ?_⟩
    · have := phaseOK_length_le hI.phase
      omega
    · intro hph
      have := hI.phase
      rcases hph with hph | hph <;> simp only [PhaseOK, hph] at this <;> omega

theorem request_volume_witness :
    (0 < sampleConfig.NClients ∧ 0 < sampleConfig.NRequests ∧
      nominalRequests .url sampleConfig < intLimit ∧
      Reach .url sampleConfig allOk sampleCompleted) ∧
    ((sampleCompleted.tasks.length : Int) ≤ nominalRequests .url sampleConfig ∧
     sampleCompleted.tasks.map (fun t => t.req) = List.range sampleCompleted.tasks.length ∧
     (sampleCompleted.phase = .draining ∨ sampleCompleted.phase = .completed →
       (sampleCompleted.tasks.length : Int) = nominalRequests .url sampleConfig)) :=
  ⟨⟨by decide, by decide, by decide,
    reach_of_exec
      [.coordinator, .coordinator, .coordinator, .coordinator, .task 0, .task 1, .task 0,
       .task 1, .task 0, .task 1, .coordinator, .coordinator] (by decide)⟩,
   request_volume .url sampleConfig allOk sampleCompleted (by decide) (by decide) (by decide)
     (reach_of_exec
      [.coordinator, .coordinator, .coordinator, .coordinator, .task 0, .task 1, .task 0,
       .task 1, .task 0, .task 1, .coordinator, .coordinator] (by decide))⟩

/-- C2 fails as stated: with `NClients = 4` and `NRequests = 2 ^ 62 + 1` the
geo batch completes after launching 4 tasks, not `P * R = 2 ^ 64 + 4`; with
`NClients = 1` and `NRequests = 2 ^ 59 + 1` the fixed-tile batch completes after
launching 32 tasks, not `P * R * 32 = 2 ^ 64 + 32`. -/
theorem request_volume_overflow :
    (∃ s, urlRequests overflowConfig allOk (sequentialSchedule 4) = some s ∧
      s.phase = .completed ∧ s.tasks.length = 4 ∧
      overflowConfig.NClients * overflowConfig.NRequests = 18446744073709551620) ∧
    (∃ s, imgRequests overflowConfigImg allOk (sequentialSchedule 32) = some s ∧
      s.phase = .completed ∧ s.tasks.length = 32 ∧
      overflowConfigImg.NClients * overflowConfigImg.NRequests * 32 = 18446744073709551648) := by
  constructor
  · refine ⟨_, rfl, ?_, ?_, ?_⟩ <;> decide
  · refine ⟨_, rfl, ?_, ?_, ?_⟩ <;> decide

theorem retrierRun_err_iff (work : Nat → Outcome) (n a : Nat) :
    retrierRun work n a = .err ↔ ∀ k, k ≤ n → work (a + k) = .err := by
  induction n generalizing a with
  | zero =>
    simp only [retrierRun]
    constructor
    · intro h k hk
      have : k = 0 := by omega
      subst this
      simpa using h
    · intro h
      simpa using h 0 (le_refl _)
  | succ n ih =>
    simp only [retrierRun]
    cases hw : work a with
    | err =>
      simp only
      rw [ih]
      constructor
      · intro h k hk
        cases k with
        | zero => simpa using hw
        | succ k =>
          have := h k (by omega)
          rwa [Nat.add_assoc, Nat.add_comm 1 k] at this
      · intro h k hk
        have := h (k + 1) (by omega)
        rwa [Nat.add_assoc, Nat.add_comm 1 k]
    | resp st =>
      simp only
      constructor
      · intro h
        cases h
      · intro h
        have := h 0 (by omega)
        rw [Nat.add_zero, hw] at this
        cases this

theorem outcome_err_iff (env : Nat → Nat → Outcome) (req : Nat) :
    outcome env req = .err ↔ ∀ a, a ≤ backoffLen → env req a = .err := by
  unfold outcome
  rw [retrierRun_err_iff]
  simp

theorem stored_in_range {w : Workload} {cfg : config} {env : Nat → Nat → Outcome} {s : State}
    {t : Task} {v : Int} (hI : Inv w cfg env s) (ht : t ∈ s.tasks) (hpc : t.pc = .store v) :
    0 ≤ v ∧ v + 1 < intLimit := by
  obtain ⟨pre, post, hts⟩ := List.append_of_mem ht
  have hTt := hI.task t ht
  simp only [TaskOK, hpc] at hTt
  have hv := hI.stored t ht v hpc
  simp only [incsTotal, hts] at hv
  have hlen := phaseOK_length_le hI.phase
  have hlim := totalRequests_lt w cfg
  have hpre := incs_sum_le_length env pre
    (fun x hx => hI.task x (by rw [hts]; simp [hx]))
  have hpost := incs_sum_le_length env post
    (fun x hx => hI.task x (by rw [hts]; simp [hx]))
  have hsum : ((pre ++ t :: post).map (fun t => t.incs)).sum =
      (pre.map (fun t => t.incs)).sum + (post.map (fun t => t.incs)).sum := by
    simp [hTt.2.1]
  rw [hsum] at hv
  simp only [hts, List.length_append, List.length_cons] at hlen
  omega

theorem getElem?_mid {α : Type} (pre post : List α) (x : α) :
    (pre ++ x :: post)[pre.length]? = some x := by
  induction pre with
  | nil => simp
  | cons y ys ih => simpa using ih

theorem set_mid {α : Type} (pre post : List α) (x y : α) :
    (pre ++ x :: post).set pre.length y = pre ++ y :: post := by
  induction pre with
  | nil => rfl
  | cons z zs ih => simp

theorem taskOK_incs_of_err {env : Nat → Nat → Outcome} {t : Task} (hT : TaskOK env t)
    (ho : outcome env t.req = .err) :
    t.incs = if t.pc = .release ∨ t.pc = .signal ∨ t.pc = .finished then 1 else 0 := by
  unfold TaskOK Task.exitOK at hT
  cases hp : t.pc with
  | run => simp only [hp] at hT; simp [hT.1]
  | load => simp only [hp] at hT; simp [hT.2.1]
  | store v => simp only [hp] at hT; simp [hT.2.1]
  | release =>
    simp only [hp, ho] at hT
    rcases hT.1 with h1 | h1
    · simp [h1.2]
    · cases h1.1
  | signal =>
    simp only [hp, ho] at hT
    rcases hT.1 with h1 | h1
    · simp [h1.2]
    · cases h1.1
  | finished =>
    simp only [hp, ho] at hT
    rcases hT.1 with h1 | h1
    · simp [h1.2]
    · cases h1.1

theorem taskOK_incs_of_resp {env : Nat → Nat → Outcome} {t : Task} (hT : TaskOK env t)
    (ho : outcome env t.req ≠ .err) : t.incs = 0 := by
  unfold TaskOK Task.exitOK at hT
  cases hp : t.pc with
  | run => simp only [hp] at hT; exact hT.1
  | load => simp only [hp] at hT; exact absurd hT.1 ho
  | store v => simp only [hp] at hT; exact absurd hT.1 ho
  | release =>
    simp only [hp] at hT
    rcases hT.1 with h1 | h1
    · exact absurd h1.1 ho
    · exact h1.2
  | signal =>
    simp only [hp] at hT
    rcases hT.1 with h1 | h1
    · exact absurd h1.1 ho
    · exact h1.2
  | finished =>
    simp only [hp] at hT
    rcases hT.1 with h1 | h1
    · exact absurd h1.1 ho
    · exact h1.2

theorem increment_alone {w : Workload} {cfg : config} {env : Nat → Nat → Outcome} {s : State}
    {j : Nat} {t : Task} (hI : Inv w cfg env s) (ht : s.tasks[j]? = some t)
    (hpc : t.pc = .run) (ha : s.phase.alive = true) (ho : outcome env t.req = .err) :
    ∃ s', exec w cfg env [.task j, .task j, .task j] s = some s' ∧
      s'.nFails = s.nFails + 1 := by
  obtain ⟨pre, post, hts, hj, hset⟩ := list_split ht
  have hpre : (pre ++ ({ t with pc := .load } : Task) :: post)[j]? =
      some { t with pc := .load } := by
    rw [← hj]; exact getElem?_mid _ _ _
  have hpre2 : (pre ++ ({ t with pc := .store s.nFails } : Task) :: post)[j]? =
      some { t with pc := .store s.nFails } := by
    rw [← hj]; exact getElem?_mid _ _ _
  have hset1 : ∀ x y : Task, (pre ++ x :: post).set j y = pre ++ y :: post := by
    intro x y
    rw [← hj]; exact set_mid _ _ _ _
  have e1 : step w cfg env (.task j) s =
      some { s with tasks := pre ++ { t with pc := .load } :: post } := by
    simp [step, taskStep, ha, ht, hpc, ho, hset]
  have hI1 := inv_step hI e1
  have e2 : step w cfg env (.task j) { s with tasks := pre ++ { t with pc := .load } :: post } =
      some { s with tasks := pre ++ { t with pc := .store s.nFails } :: post } := by
    simp [step, taskStep, ha, hpre, hset1]
  have hI2 := inv_step hI1 e2
  have hmem : ({ t with pc := .store s.nFails } : Task) ∈
      pre ++ ({ t with pc := .store s.nFails } : Task) :: post := by simp
  have hr := stored_in_range hI2 hmem rfl
  have hwrap : wrapInt (s.nFails + 1) = s.nFails + 1 := wrapInt_of_range (by omega) hr.2
  refine ⟨{ s with tasks := pre ++ { t with pc := .release, incs := t.incs + 1 } :: post,
                   nFails := s.nFails + 1 }, ?_, rfl⟩
  simp only [exec, e1, e2]
  simp [step, taskStep, ha, hpre2, hset1, hwrap]

/-- C5 (one failure per logical request): a task whose every attempt made by
the retry policy fails at the transport level executes `nFails++` exactly once
(its increment count is 0 before it and 1 from then on, however many attempts
were made), and run on its own its three steps add exactly 1 to `nFails`; a task whose call returns a response at some attempt never
increments the counter. -/
theorem one_failure_per_request (w : Workload) (cfg : config) (env : Nat → Nat → Outcome)
    (s : State) (j : Nat) (t : Task) (h : Reach w cfg env s) (ht : s.tasks[j]? = some t) :
    ((∀ a, a ≤ backoffLen → env t.req a = .err) →
      (t.incs = if t.pc = .release ∨ t.pc = .signal ∨ t.pc = .finished then 1 else 0) ∧
      (t.pc = .run → s.phase.alive = true →
        ∃ s', exec w cfg env [.task j, .task j, .task j] s = some s' ∧
          s'.nFails = s.nFails + 1)) ∧
    ((∃ a, a ≤ backoffLen ∧ env t.req a ≠ .err) → t.incs = 0) := by
  have hmem : t ∈ s.tasks := List.getElem?_mem ht
  have hI : Inv w cfg env s := by
    rcases reach_cases h with ⟨rfl, -⟩ | hI
    · exfalso
      unfold init at hmem
      split at hmem
      · simp at hmem
      · split at hmem <;> simp at hmem
    · exact hI
  have hT := hI.task t hmem
  constructor
  · intro herr
    have ho := (outcome_err_iff env t.req).mpr herr
    exact ⟨taskOK_incs_of_err hT ho, fun hpc ha => increment_alone hI ht hpc ha ho⟩
  · rintro ⟨a, ha, hne⟩
    have ho : outcome env t.req ≠ .err := fun h0 =>
      hne ((outcome_err_iff env t.req).mp h0 a ha)
    exact taskOK_incs_of_resp hT ho

theorem one_failure_per_request_witness :
    (Reach .url singleConfig allErr singleDispatched ∧
      singleDispatched.tasks[0]? =
        some { req := 0, client := 0, pc := .run, incs := 0, sent := 0, dones := 0 }) ∧
    (((∀ a, a ≤ backoffLen → allErr 0 a = .err) →
      ((0 : Nat) = if TaskPc.run = .release ∨ TaskPc.run = .signal ∨ TaskPc.run = .finished
        then 1 else 0) ∧
      (TaskPc.run = .run → singleDispatched.phase.alive = true →
        ∃ s', exec .url singleConfig allErr [.task 0, .task 0, .task 0] singleDispatched =
            some s' ∧ s'.nFails = singleDispatched.nFails + 1)) ∧
     ((∃ a, a ≤ backoffLen ∧ allErr 0 a ≠ .err) → (0 : Nat) = 0)) :=
  ⟨⟨reach_of_exec [.coordinator, .coordinator] (by decide), rfl⟩,
   one_failure_per_request .url singleConfig allErr singleDispatched 0
     { req := 0, client := 0, pc := .run, incs := 0, sent := 0, dones := 0 }
     (reach_of_exec [.coordinator, .coordinator] (by decide)) rfl⟩

theorem reach_inv_of_task {w : Workload} {cfg : config} {env : Nat → Nat → Outcome} {s : State}
    {t : Task} (h : Reach w cfg env s) (hmem : t ∈ s.tasks) : Inv w cfg env s := by
  rcases reach_cases h with ⟨rfl, -⟩ | hI
  · exfalso
    unfold init at hmem
    split at hmem
    · simp at hmem
    · split at hmem <;> simp at hmem
  · exact hI

theorem counterFits_of_task {w : Workload} {cfg : config} {env : Nat → Nat → Outcome}
    {s : State} {t : Task} (hI : Inv w cfg env s) (hmem : t ∈ s.tasks)
    (hlt : totalRequests w cfg < counterLimit) : counterFits w cfg := by
  have h1 := phaseOK_length_le hI.phase
  have h2 : 0 < s.tasks.length := List.length_pos_of_mem hmem
  exact ⟨by omega, hlt⟩

theorem completed_all_finished {w : Workload} {cfg : config} {env : Nat → Nat → Outcome}
    {s : State} (hI : Inv w cfg env s) (hfit : counterFits w cfg) (hc : s.phase = .completed) :
    ∀ t ∈ s.tasks, t.pc = .finished := by
  have hph := hI.phase
  simp only [PhaseOK, hc] at hph
  have hwg := hI.wg hfit
  have hnn := hfit.1
  have hlen : (s.tasks.filter (fun t => t.pc.isFinished)).length = s.tasks.length := by
    simp only [finishedCount] at hwg
    omega
  intro t ht
  have := List.filter_length_eq_length.mp hlen t ht
  cases hp : t.pc <;> simp [hp, TaskPc.isFinished] at this ⊢

theorem taskOK_run_of_status {env : Nat → Nat → Outcome} {t : Task} {st : Int}
    (hT : TaskOK env t) (ho : outcome env t.req = .resp st) (hst : st ≠ 200) :
    t.pc = .run ∧ t.incs = 0 ∧ t.sent = 0 ∧ t.dones = 0 := by
  have hne : outcome env t.req ≠ .resp 200 := by
    rw [ho]
    intro h
    cases h
    exact hst rfl
  have hne' : outcome env t.req ≠ .err := by rw [ho]; intro h; cases h
  unfold TaskOK Task.exitOK at hT
  cases hp : t.pc with
  | run => simp only [hp] at hT; exact ⟨rfl, hT⟩
  | load => simp only [hp] at hT; exact absurd hT.1 hne'
  | store v => simp only [hp] at hT; exact absurd hT.1 hne'
  | release =>
    simp only [hp] at hT
    rcases hT.1 with h1 | h1
    · exact absurd h1.1 hne'
    · exact absurd h1.1 hne
  | signal =>
    simp only [hp] at hT
    rcases hT.1 with h1 | h1
    · exact absurd h1.1 hne'
    · exact absurd h1.1 hne
  | finished =>
    simp only [hp] at hT
    rcases hT.1 with h1 | h1
    · exact absurd h1.1 hne'
    · exact absurd h1.1 hne

theorem terminal_cases {w : Workload} {cfg : config} {env : Nat → Nat → Outcome} {s : State}
    {t : Task} (hI : Inv w cfg env s) (hfit : counterFits w cfg) (hmem : t ∈ s.tasks)
    (hterm : ∀ a, step w cfg env a s = none) :
    s.phase = .completed ∨ s.phase = .aborted ∨ s.phase = .fatal := by
  have hph := hI.phase
  cases hp : s.phase with
  | dispatch i =>
    obtain ⟨a, u, hu⟩ := step_enabled hI (fun _ => hfit) (by rw [hp]; rfl)
    rw [hterm a] at hu
    cases hu
  | acquire i =>
    obtain ⟨a, u, hu⟩ := step_enabled hI (fun _ => hfit) (by rw [hp]; rfl)
    rw [hterm a] at hu
    cases hu
  | draining =>
    obtain ⟨a, u, hu⟩ := step_enabled hI (fun _ => hfit) (by rw [hp]; rfl)
    rw [hterm a] at hu
    cases hu
  | completed => exact Or.inl rfl
  | aborted => exact Or.inr (Or.inl rfl)
  | fatal => exact Or.inr (Or.inr rfl)
  | panicked =>
    exfalso
    simp only [PhaseOK, hp] at hph
    have : 0 < s.tasks.length := List.length_pos_of_mem hmem
    have := hph.2 hfit
    omega

/-- C6 (unexpected status is always fatal): a launched request whose response
has a status other than 200 is never past `r.Run` and never counted (no
increment of `nFails`); whenever the batch is still running, whatever the
failure counter and the threshold, the step in which the task obtains that
response ends the batch in the fatal state, leaving `nFails` unchanged, and
no actor moves after it.  Moreover, when the request count fits the 32-bit
counter of the WaitGroup, a batch with such a request never completes and can
only end aborted or fatal. -/
theorem unexpected_status_fatal (w : Workload) (cfg : config) (env : Nat → Nat → Outcome)
    (s : State) (j : Nat) (t : Task) (st : Int) (h : Reach w cfg env s)
    (ht : s.tasks[j]? = some t) (ho : outcome env t.req = .resp st) (hst : st ≠ 200) :
    (t.pc = .run ∧ t.incs = 0) ∧
    (s.phase.alive = true →
      step w cfg env (.task j) s = some { s with phase := .fatal }) ∧
    (∀ a, step w cfg env a { s with phase := .fatal } = none) ∧
    (totalRequests w cfg < counterLimit →
      s.phase ≠ .completed ∧
      ((∀ a, step w cfg env a s = none) → s.phase = .aborted ∨ s.phase = .fatal)) := by
  have hmem : t ∈ s.tasks := List.getElem?_mem ht
  have hI := reach_inv_of_task h hmem
  have hrun := taskOK_run_of_status (hI.task t hmem) ho hst
  refine ⟨⟨hrun.1, hrun.2.1⟩, ?_, fun a => step_dead a rfl, ?_⟩
  · intro ha
    simp [step, taskStep, ha, ht, hrun.1, ho, hst]
  · intro hlt
    have hfit := counterFits_of_task hI hmem hlt
    have hnc : s.phase ≠ .completed := by
      intro hc
      have := completed_all_finished hI hfit hc t hmem
      rw [hrun.1] at this
      cases this
    refine ⟨hnc, fun hterm => ?_⟩
    rcases terminal_cases hI hfit hmem hterm with hc | hc | hc
    · exact absurd hc hnc
    · exact Or.inl hc
    · exact Or.inr hc

theorem unexpected_status_fatal_witness :
    (Reach .url singleConfig allBusy singleDispatched ∧
      singleDispatched.tasks[0]? =
        some { req := 0, client := 0, pc := .run, incs := 0, sent := 0, dones := 0 } ∧
      outcome allBusy 0 = .resp 503 ∧ (503 : Int) ≠ 200) ∧
    ((TaskPc.run = .run ∧ (0 : Nat) = 0) ∧
     (singleDispatched.phase.alive = true →
       step .url singleConfig allBusy (.task 0) singleDispatched =
         some { singleDispatched with phase := .fatal }) ∧
     (∀ a, step .url singleConfig allBusy a { singleDispatched with phase := .fatal } = none) ∧
     (totalRequests .url singleConfig < counterLimit →
       singleDispatched.phase ≠ .completed ∧
       ((∀ a, step .url singleConfig allBusy a singleDispatched = none) →
         singleDispatched.phase = .aborted ∨ singleDispatched.phase = .fatal))) :=
  ⟨⟨reach_of_exec [.coordinator, .coordinator] (by decide), rfl, by decide, by decide⟩,
   unexpected_status_fatal .url singleConfig allBusy singleDispatched 0
     { req := 0, client := 0, pc := .run, incs := 0, sent := 0, dones := 0 } 503
     (reach_of_exec [.coordinator, .coordinator] (by decide)) rfl (by decide) (by decide)⟩

theorem randFloat_bounds {lo hi f : ℚ} (hle : lo ≤ hi) (h0 : 0 ≤ f) (h1 : f < 1) :
    lo ≤ randFloat lo hi f ∧ randFloat lo hi f ≤ hi := by
  unfold randFloat
  have hd : 0 ≤ hi - lo := by linarith
  constructor
  · have := mul_nonneg h0 hd
    linarith
  · have : f * (hi - lo) ≤ 1 * (hi - lo) := mul_le_mul_of_nonneg_right (le_of_lt h1) hd
    linarith

/-- C7 (geo producer ranges): if `rand.Intn(n)` returns an integer in `[0, n)`
and `rand.Float64()` a number in `[0, 1)`, then `newRandomSpot` returns a zoom
with `14 ≤ zoom < 22`, a latitude in `[49.4426671413, 50.1280516628]` and a
longitude in `[5.67405195478, 6.24275109216]` (coordinates computed over the
rationals). -/
theorem newRandomSpot_ranges (intn : Int → Int) (f₁ f₂ : ℚ)
    (hintn : ∀ n, 0 < n → 0 ≤ intn n ∧ intn n < n)
    (h₁ : 0 ≤ f₁ ∧ f₁ < 1) (h₂ : 0 ≤ f₂ ∧ f₂ < 1) :
    (14 ≤ (newRandomSpot intn f₁ f₂).zoom ∧ (newRandomSpot intn f₁ f₂).zoom < 22) ∧
    (49.4426671413 ≤ (newRandomSpot intn f₁ f₂).lat ∧
      (newRandomSpot intn f₁ f₂).lat ≤ 50.1280516628) ∧
    (5.67405195478 ≤ (newRandomSpot intn f₁ f₂).lng ∧
      (newRandomSpot intn f₁ f₂).lng ≤ 6.24275109216) := by
  refine ⟨?_, ?_, ?_⟩
  · have h8 : wrapInt (22 - 14) = 8 := by decide
    have hr := hintn 8 (by decide)
    have hz : (newRandomSpot intn f₁ f₂).zoom = 14 + intn 8 := by
      simp only [newRandomSpot, randInt, h8]
      exact wrapInt_of_range (by omega) (by unfold intLimit; omega)
    rw [hz]
    omega
  · exact randFloat_bounds (by norm_num) h₁.1 h₁.2
  · exact randFloat_bounds (by norm_num) h₂.1 h₂.2

theorem newRandomSpot_ranges_witness :
    ((∀ n : Int, 0 < n → 0 ≤ (fun m : Int => m - 1) n ∧ (fun m : Int => m - 1) n < n) ∧
      (0 ≤ (1 / 2 : ℚ) ∧ (1 / 2 : ℚ) < 1) ∧ (0 ≤ (3 / 4 : ℚ) ∧ (3 / 4 : ℚ) < 1)) ∧
    ((14 ≤ (newRandomSpot (fun m => m - 1) (1 / 2) (3 / 4)).zoom ∧
        (newRandomSpot (fun m => m - 1) (1 / 2) (3 / 4)).zoom < 22) ∧
     (49.4426671413 ≤ (newRandomSpot (fun m => m - 1) (1 / 2) (3 / 4)).lat ∧
        (newRandomSpot (fun m => m - 1) (1 / 2) (3 / 4)).lat ≤ 50.1280516628) ∧
     (5.67405195478 ≤ (newRandomSpot (fun m => m - 1) (1 / 2) (3 / 4)).lng ∧
        (newRandomSpot (fun m => m - 1) (1 / 2) (3 / 4)).lng ≤ 6.24275109216)) :=
  ⟨⟨fun n hn => ⟨by show 0 ≤ n - 1; omega, by show n - 1 < n; omega⟩,
    ⟨by norm_num, by norm_num⟩, ⟨by norm_num, by norm_num⟩⟩,
   newRandomSpot_ranges (fun m => m - 1) (1 / 2) (3 / 4)
     (fun n hn => ⟨by show 0 ≤ n - 1; omega, by show n - 1 < n; omega⟩)
     ⟨by norm_num, by norm_num⟩ ⟨by norm_num, by norm_num⟩⟩

/-- C8 (mean duration), amended: for every completed batch of `urlRequests` or
`imgRequests` with `0 < poolSize`, `0 < requestsPerClient` whose request count
(`P * R`, resp. `P * R * 32`) fits a Go `int`, and every non-negative total
duration `d`, `totalRequests` is that count, is positive and is the number of
requests issued, so the division of the report is defined, and the reported
mean `m` is the truncated quotient of `d` by `totalRequests`:
`m * totalRequests ≤ d < (m + 1) * totalRequests`; the other fields are the
pool size, `d` and `nFails`. -/
theorem mean_duration (w : Workload) (cfg : config) (env : Nat → Nat → Outcome) (s : State)
    (d : Int) (hP : 0 < cfg.NClients) (hR : 0 < cfg.NRequests)
    (hfit : nominalRequests w cfg < intLimit) (hd : 0 ≤ d)
    (h : Reach w cfg env s) (hc : s.phase = .completed) :
    totalRequests w cfg = nominalRequests w cfg ∧ 0 < totalRequests w cfg ∧
    (s.tasks.length : Int) = totalRequests w cfg ∧
    ∃ r, runReport w cfg d s.nFails = some r ∧
      r.meanDuration * totalRequests w cfg ≤ d ∧
      d < (r.meanDuration + 1) * totalRequests w cfg ∧
      r.poolSize = cfg.NClients ∧ r.totalDuration = d ∧ r.failureCount = s.nFails := by
  have hnom := nominalRequests_pos w hP hR
  have heq := totalRequests_eq_nominal (le_of_lt hnom) hfit
  have hpos : 0 < totalRequests w cfg := by omega
  have hne : totalRequests w cfg ≠ 0 := by omega
  have hlen : (s.tasks.length : Int) = totalRequests w cfg := by
    rcases reach_cases h with ⟨rfl, hp⟩ | hI
    · rw [hp] at hc
      cases hc
    · have hph := hI.phase
      simp only [PhaseOK, hc] at hph
      omega
  refine ⟨heq, hpos, hlen, ?_⟩
  simp only [runReport, hne, if_false]
  refine ⟨_, rfl, ?_, ?_, rfl, rfl, rfl⟩
  · show Int.tdiv d (totalRequests w cfg) * totalRequests w cfg ≤ d
    rw [Int.tdiv_eq_ediv hd (le_of_lt hpos)]
    exact Int.ediv_mul_le d hne
  · show d < (Int.tdiv d (totalRequests w cfg) + 1) * totalRequests w cfg
    rw [Int.tdiv_eq_ediv hd (le_of_lt hpos)]
    exact Int.lt_ediv_add_one_mul_self d hpos

theorem mean_duration_witness :
    (0 < sampleConfig.NClients ∧ 0 < sampleConfig.NRequests ∧
      nominalRequests .url sampleConfig < intLimit ∧ (0 : Int) ≤ 7 ∧
      Reach .url sampleConfig allOk sampleCompleted ∧ sampleCompleted.phase = .completed) ∧
    (totalRequests .url sampleConfig = nominalRequests .url sampleConfig ∧
     0 < totalRequests .url sampleConfig ∧
     (sampleCompleted.tasks.length : Int) = totalRequests .url sampleConfig ∧
     ∃ r, runReport .url sampleConfig 7 sampleCompleted.nFails = some r ∧
      r.meanDuration * totalRequests .url sampleConfig ≤ 7 ∧
      7 < (r.meanDuration + 1) * totalRequests .url sampleConfig ∧
      r.poolSize = sampleConfig.NClients ∧ r.totalDuration = 7 ∧
      r.failureCount = sampleCompleted.nFails) :=
  ⟨⟨by decide, by decide, by decide, by decide,
    reach_of_exec
      [.coordinator, .coordinator, .coordinator, .coordinator, .task 0, .task 1, .task 0,
       .task 1, .task 0, .task 1, .coordinator, .coordinator] (by decide),
    rfl⟩,
   mean_duration .url sampleConfig allOk sampleCompleted 7 (by decide) (by decide) (by decide)
     (by decide)
     (reach_of_exec
      [.coordinator, .coordinator, .coordinator, .coordinator, .task 0, .task 1, .task 0,
       .task 1, .task 0, .task 1, .coordinator, .coordinator] (by decide))
     rfl⟩

/-- C8 fails as stated: with `NClients = 2` and `NRequests = 2 ^ 62` (geo
batch), or `NClients = 1` and `NRequests = 2 ^ 58` (fixed-tile batch),
`totalRequests` is `-2 ^ 63`; its low 32 bits are zero, so `wg.Add` does not
panic, the loop body never runs, `wg.Wait()` returns at once and the batch
completes; for `d = 190` the reported mean is 0 and `d < (m + 1) *
totalRequests` is false. -/
theorem mean_duration_negative_total :
    (0 < negativeTotal.NClients ∧ 0 < negativeTotal.NRequests ∧
      totalRequests .url negativeTotal = -9223372036854775808 ∧
      (∃ s, urlRequests negativeTotal allOk [.coordinator, .coordinator] = some s ∧
        s.phase = .completed ∧
        runReport .url negativeTotal 190 s.nFails =
          some { poolSize := 2, totalDuration := 190, meanDuration := 0, failureCount := 0 }) ∧
      ¬ ((190 : Int) < (0 + 1) * totalRequests .url negativeTotal)) ∧
    (0 < negativeTotalImg.NClients ∧ 0 < negativeTotalImg.NRequests ∧
      totalRequests .img negativeTotalImg = -9223372036854775808 ∧
      (∃ s, imgRequests negativeTotalImg allOk [.coordinator, .coordinator] = some s ∧
        s.phase = .completed ∧
        runReport .img negativeTotalImg 190 s.nFails =
          some { poolSize := 1, totalDuration := 190, meanDuration := 0, failureCount := 0 }) ∧
      ¬ ((190 : Int) < (0 + 1) * totalRequests .img negativeTotalImg)) := by
  refine ⟨⟨by decide, by decide, by decide, ⟨_, rfl, by decide, by decide⟩, by decide⟩,
    ⟨by decide, by decide, by decide, ⟨_, rfl, by decide, by decide⟩, by decide⟩⟩

theorem taskOK_sent_dones {env : Nat → Nat → Outcome} {t : Task} (hT : TaskOK env t) :
    (t.sent = if t.pc = .signal ∨ t.pc = .finished then 1 else 0) ∧
    (t.dones = if t.pc = .finished then 1 else 0) := by
  unfold TaskOK at hT
  cases hp : t.pc <;> simp only [hp] at hT <;> simp [hT]

theorem task_step_alive {w : Workload} {cfg : config} {env : Nat → Nat → Outcome} {s s' : State}
    {j : Nat} {t : Task} (hI : Inv w cfg env s) (hfit : counterFits w cfg)
    (ht : s.tasks[j]? = some t)
    (ho : outcome env t.req = .err ∨ outcome env t.req = .resp 200)
    (h : taskStep cfg env j s = some s') :
    s'.phase = s.phase ∧
      ∃ t', s'.tasks[j]? = some t' ∧ t.pc.rank < t'.pc.rank ∧ t'.req = t.req ∧
        t'.client = t.client := by
  have hI' : Inv w cfg env s' := inv_task hI h
  obtain ⟨ha, pre, u, post, hts, hj, hc⟩ := taskStep_cases h
  have hu : u = t := by
    have := getElem?_mid pre post u
    rw [← hts, hj, ht] at this
    exact (Option.some.inj this).symm
  subst hu
  have hmid : ∀ x : Task, (pre ++ x :: post)[j]? = some x := by
    intro x
    rw [← hj]
    exact getElem?_mid pre post x
  rcases hc with ⟨hpc, -, rfl⟩ | ⟨-, ⟨st, hst, hne⟩, rfl⟩ | ⟨hpc, -, rfl⟩ | ⟨hpc, rfl⟩ |
    ⟨v, hpc, rfl⟩ | ⟨hpc, -, rfl⟩ | ⟨-, -, rfl⟩ | ⟨hpc, -, rfl⟩
  · exact ⟨rfl, _, hmid _, by simp [hpc, TaskPc.rank], rfl, rfl⟩
  · exfalso
    rcases ho with ho | ho
    · rw [ho] at hst; cases hst
    · rw [ho] at hst
      cases hst
      exact hne rfl
  · exact ⟨rfl, _, hmid _, by simp [hpc, TaskPc.rank], rfl, rfl⟩
  · exact ⟨rfl, _, hmid _, by simp [hpc, TaskPc.rank], rfl, rfl⟩
  · exact ⟨rfl, _, hmid _, by simp [hpc, TaskPc.rank], rfl, rfl⟩
  · exact ⟨rfl, _, hmid _, by simp [hpc, TaskPc.rank], rfl, rfl⟩
  · exfalso
    have hph := hI'.phase
    simp only [PhaseOK] at hph
    have h0 := hph.2 hfit
    have h1 := hph.1
    rw [hts] at h1
    simp only [List.length_append, List.length_cons] at h1
    omega
  · exact ⟨rfl, _, hmid _, by simp [hpc, TaskPc.rank], rfl, rfl⟩

theorem task_runs_to_end {w : Workload} {cfg : config} {env : Nat → Nat → Outcome} (j n : Nat)
    (hfit : counterFits w cfg) (s : State) (t : Task) (hI : Inv w cfg env s)
    (ha : s.phase.alive = true) (ht : s.tasks[j]? = some t)
    (ho : outcome env t.req = .err ∨ outcome env t.req = .resp 200)
    (hn : 5 ≤ n + t.pc.rank) :
    ∃ k s' t', k ≤ n ∧ exec w cfg env (List.replicate k (.task j)) s = some s' ∧
      Inv w cfg env s' ∧ s'.phase = s.phase ∧ s'.tasks[j]? = some t' ∧ t'.pc = .finished ∧
      t'.req = t.req ∧ t'.client = t.client := by
  induction n generalizing s t with
  | zero =>
    have hfin : t.pc = .finished := by
      cases hp : t.pc <;> simp [hp, TaskPc.rank] at hn
      rfl
    exact ⟨0, s, t, le_refl _, rfl, hI, rfl, ht, hfin, rfl, rfl⟩
  | succ n ih =>
    by_cases hfin : t.pc = .finished
    · exact ⟨0, s, t, Nat.zero_le _, rfl, hI, rfl, ht, hfin, rfl, rfl⟩
    · obtain ⟨s1, hs1⟩ := task_enabled hI ha ht hfin
      obtain ⟨hph, t1, ht1, hrank, hreq, hcl⟩ := task_step_alive hI hfit ht ho hs1
      have hI1 := inv_task hI hs1
      obtain ⟨k, s', t', hk, hex, hI', hph', ht', hfin', hreq', hcl'⟩ :=
        ih s1 t1 hI1 (by rw [hph]; exact ha) ht1 (by rw [hreq]; exact ho) (by omega)
      refine ⟨k + 1, s', t', by omega, ?_, hI', by rw [hph', hph], ht', hfin',
        by rw [hreq', hreq], by rw [hcl', hcl]⟩
      simp only [List.replicate_succ, exec, step, hs1]
      exact hex

/-- C9 (release on every exit path), amended: in a batch whose request count
fits the 32-bit counter of the WaitGroup, no task sends its client back or
signals completion more than once; a task whose request ends in success
(status 200) or in a transport failure, as long as the process has not been
terminated, is never blocked and reaches its end within five steps of its
own, having then sent its client back exactly once and signalled completion
exactly once; in a completed batch every task has done so.  A task whose
response has another status never leaves `r.Run`, sends nothing back and
signals nothing: its only step terminates the process, and once the process
is terminated no task takes a further step. -/
theorem release_on_exit (w : Workload) (cfg : config) (env : Nat → Nat → Outcome)
    (s : State) (j : Nat) (t : Task) (h : Reach w cfg env s) (ht : s.tasks[j]? = some t)
    (hlt : totalRequests w cfg < counterLimit) :
    (t.sent ≤ 1 ∧ t.dones ≤ 1) ∧
    ((outcome env t.req = .err ∨ outcome env t.req = .resp 200) → s.phase.alive = true →
      ∃ k s' t', k ≤ 5 ∧ exec w cfg env (List.replicate k (.task j)) s = some s' ∧
        s'.phase = s.phase ∧ s'.tasks[j]? = some t' ∧ t'.req = t.req ∧
        t'.client = t.client ∧ t'.pc = .finished ∧ t'.sent = 1 ∧ t'.dones = 1) ∧
    (s.phase = .completed → t.pc = .finished ∧ t.sent = 1 ∧ t.dones = 1) ∧
    (∀ st, outcome env t.req = .resp st → st ≠ 200 →
      t.pc = .run ∧ t.sent = 0 ∧ t.dones = 0 ∧
      (s.phase.alive = true →
        step w cfg env (.task j) s = some { s with phase := .fatal })) ∧
    (s.phase.alive = false → ∀ a, step w cfg env a s = none) := by
  have hmem : t ∈ s.tasks := List.getElem?_mem ht
  have hI := reach_inv_of_task h hmem
  have hfit := counterFits_of_task hI hmem hlt
  have hT := hI.task t hmem
  have hsd := taskOK_sent_dones hT
  refine ⟨?_, ?_, ?_, ?_, fun hd a => step_dead a hd⟩
  · obtain ⟨h1, h2⟩ := hsd
    constructor
    · rw [h1]; split <;> omega
    · rw [h2]; split <;> omega
  · intro ho ha
    obtain ⟨k, s', t', hk, hex, hI', hph, ht', hfin, hreq, hcl⟩ :=
      task_runs_to_end j 5 hfit s t hI ha ht ho (by omega)
    have hsd' := taskOK_sent_dones (hI'.task t' (List.getElem?_mem ht'))
    simp only [hfin, or_true, if_true] at hsd'
    exact ⟨k, s', t', hk, hex, hph, ht', hreq, hcl, hfin, hsd'.1, hsd'.2⟩
  · intro hc
    have hfin := completed_all_finished hI hfit hc t hmem
    simp only [hfin, or_true, if_true] at hsd
    exact ⟨hfin, hsd.1, hsd.2⟩
  · intro st ho hst
    have hrun := taskOK_run_of_status hT ho hst
    refine ⟨hrun.1, hrun.2.2.1, hrun.2.2.2, ?_⟩
    intro ha
    simp [step, taskStep, ha, ht, hrun.1, ho, hst]

theorem release_on_exit_witness :
    (Reach .url sampleConfig allOk sampleCompleted ∧
      sampleCompleted.tasks[0]? =
        some { req := 0, client := 0, pc := .finished, incs := 0, sent := 1, dones := 1 } ∧
      totalRequests .url sampleConfig < counterLimit) ∧
    (((1 : Nat) ≤ 1 ∧ (1 : Nat) ≤ 1) ∧
     ((outcome allOk 0 = .err ∨ outcome allOk 0 = .resp 200) →
       sampleCompleted.phase.alive = true →
       ∃ k s' t', k ≤ 5 ∧
         exec .url sampleConfig allOk (List.replicate k (.task 0)) sampleCompleted = some s' ∧
         s'.phase = sampleCompleted.phase ∧ s'.tasks[0]? = some t' ∧ t'.req = 0 ∧
         t'.client = 0 ∧ t'.pc = .finished ∧ t'.sent = 1 ∧ t'.dones = 1) ∧
     (sampleCompleted.phase = .completed →
       TaskPc.finished = .finished ∧ (1 : Nat) = 1 ∧ (1 : Nat) = 1) ∧
     (∀ st, outcome allOk 0 = .resp st → st ≠ 200 →
       TaskPc.finished = .run ∧ (1 : Nat) = 0 ∧ (1 : Nat) = 0 ∧
       (sampleCompleted.phase.alive = true →
         step .url sampleConfig allOk (.task 0) sampleCompleted =
           some { sampleCompleted with phase := .fatal })) ∧
     (sampleCompleted.phase.alive = false →
       ∀ a, step .url sampleConfig allOk a sampleCompleted = none)) :=
  ⟨⟨reach_of_exec
      [.coordinator, .coordinator, .coordinator, .coordinator, .task 0, .task 1, .task 0,
       .task 1, .task 0, .task 1, .coordinator, .coordinator] (by decide),
    rfl, by decide⟩,
   release_on_exit .url sampleConfig allOk sampleCompleted 0
     { req := 0, client := 0, pc := .finished, incs := 0, sent := 1, dones := 1 }
     (reach_of_exec
      [.coordinator, .coordinator, .coordinator, .coordinator, .task 0, .task 1, .task 0,
       .task 1, .task 0, .task 1, .coordinator, .coordinator] (by decide))
     rfl (by decide)⟩

/-- C9 fails as stated on the unexpected-status path: with one client, one
request and a 503 response, both `urlRequests` and `imgRequests` end in the
fatal state after the task's first step; the channel is empty, the client was
sent back zero times, completion was signalled zero times (the WaitGroup
counter still has its initial value) and no actor can take a step any more. -/
theorem release_skipped_on_fatal :
    (∃ s, urlRequests singleConfig allBusy [.coordinator, .coordinator, .task 0] = some s ∧
      s.phase = .fatal ∧ s.clients = [] ∧ s.wg = 1 ∧
      s.tasks = [{ req := 0, client := 0, pc := .run, incs := 0, sent := 0, dones := 0 }] ∧
      ∀ a, step .url singleConfig allBusy a s = none) ∧
    (∃ s, imgRequests singleConfig allBusy [.coordinator, .coordinator, .task 0] = some s ∧
      s.phase = .fatal ∧ s.clients = [] ∧ s.wg = 32 ∧
      s.tasks = [{ req := 0, client := 0, pc := .run, incs := 0, sent := 0, dones := 0 }] ∧
      ∀ a, step .img singleConfig allBusy a s = none) := by
  constructor
  · exact ⟨_, rfl, by decide, by decide, by decide, by decide, fun a => step_dead a rfl⟩
  · exact ⟨_, rfl, by decide, by decide, by decide, by decide, fun a => step_dead a rfl⟩

theorem maxFails_zero {cfg : config} (hk : cfg.MaxFailsPerClient = 0) : maxFails cfg = 0 := by
  simp only [maxFails, hk, mul_zero]
  decide

theorem ahead_step {w : Workload} {cfg : config} {env : Nat → Nat → Outcome} {a : Actor}
    {s t : State} (hI : Inv w cfg env s) (hm : maxFails cfg = 0) (hf : 0 < s.nFails)
    (hc : checkAhead w cfg s = true ∨ s.phase = .aborted ∨ s.phase = .fatal ∨
      s.phase = .panicked)
    (h : step w cfg env a s = some t) :
    0 < t.nFails ∧ (checkAhead w cfg t = true ∨ t.phase = .aborted ∨ t.phase = .fatal ∨
      t.phase = .panicked) := by
  rcases hc with hc | hc | hc | hc
  · cases a with
    | coordinator =>
      simp only [step] at h
      rcases coordStep_cases h with ⟨i, hp, hi, hgt, rfl⟩ | ⟨i, hp, hi, hle, rfl⟩ |
        ⟨i, hp, hi, rfl⟩ | ⟨i, c, rest, hp, hcl, rfl⟩ | ⟨hp, hw, ht, rfl⟩ | ⟨hp, hw, ht, rfl⟩
      · exact ⟨hf, Or.inr (Or.inl rfl)⟩
      · exfalso
        rw [hm] at hle
        exact hle hf
      · simp [checkAhead, hp] at hc
        exact absurd hc hi
      · refine ⟨hf, Or.inl ?_⟩
        simp only [checkAhead, hp, decide_eq_true_eq] at hc
        simp only [checkAhead, decide_eq_true_eq]
        push_cast
        exact hc
      · simp [checkAhead, hp] at hc
      · simp [checkAhead, hp] at hc
    | task j =>
      simp only [step] at h
      obtain ⟨ha, pre, u, post, hts, -, hcases⟩ := taskStep_cases h
      have hu : u ∈ s.tasks := by rw [hts]; simp
      rcases hcases with ⟨-, -, rfl⟩ | ⟨-, -, rfl⟩ | ⟨-, -, rfl⟩ | ⟨-, rfl⟩ | ⟨v, hpc, rfl⟩ |
        ⟨-, -, rfl⟩ | ⟨-, -, rfl⟩ | ⟨-, -, rfl⟩
      · exact ⟨hf, Or.inl hc⟩
      · exact ⟨hf, Or.inr (Or.inr (Or.inl rfl))⟩
      · exact ⟨hf, Or.inl hc⟩
      · exact ⟨hf, Or.inl hc⟩
      · have hr := stored_in_range hI hu hpc
        have hwrap : wrapInt (v + 1) = v + 1 := wrapInt_of_range (by omega) hr.2
        refine ⟨?_, Or.inl hc⟩
        show 0 < wrapInt (v + 1)
        rw [hwrap]
        omega
      · exact ⟨hf, Or.inl hc⟩
      · exact ⟨hf, Or.inr (Or.inr (Or.inr rfl))⟩
      · exact ⟨hf, Or.inl hc⟩
  · rw [step_dead a (by rw [hc]; rfl)] at h
    cases h
  · rw [step_dead a (by rw [hc]; rfl)] at h
    cases h
  · rw [step_dead a (by rw [hc]; rfl)] at h
    cases h

theorem ahead_exec {w : Workload} {cfg : config} {env : Nat → Nat → Outcome}
    (sched : List Actor) {s t : State} (hI : Inv w cfg env s) (hm : maxFails cfg = 0)
    (hf : 0 < s.nFails)
    (hc : checkAhead w cfg s = true ∨ s.phase = .aborted ∨ s.phase = .fatal ∨
      s.phase = .panicked)
    (h : exec w cfg env sched s = some t) :
    Inv w cfg env t ∧ 0 < t.nFails ∧
      (checkAhead w cfg t = true ∨ t.phase = .aborted ∨ t.phase = .fatal ∨
        t.phase = .panicked) := by
  induction sched generalizing s with
  | nil =>
    simp only [exec, Option.some.injEq] at h
    subst h
    exact ⟨hI, hf, hc⟩
  | cons a rest ih =>
    simp only [exec] at h
    split at h
    · simp at h
    next u hu =>
      have := ahead_step hI hm hf hc hu
      exact ih (inv_step hI hu) this.1 this.2 h

theorem checkAhead_pos {w : Workload} {cfg : config} {s : State}
    (hc : checkAhead w cfg s = true) : 0 < totalRequests w cfg ∧ s.phase.alive = true ∧
      s.phase ≠ .draining := by
  unfold checkAhead at hc
  cases hp : s.phase <;> simp only [hp, decide_eq_true_eq] at hc <;>
    first
    | exact ⟨by omega, rfl, by simp⟩
    | cases hc

/-- C3 (zero-tolerance abort), amended: with `MaxFailsPerClient = 0`, once a
failure has been recorded (`nFails > 0`) while the coordinator still has a
threshold check ahead of it, then after any further steps `nFails` is still
positive and the batch is either still before that check or aborted, fatal or
panicked; it never reaches `wg.Wait()` or a Run Report, the check itself (top
of an iteration) aborts, and the batch can only end aborted, fatal or in a
panic, the panic (of `wg.Done()`) being excluded when the request count fits
the 32-bit counter of the WaitGroup. -/
theorem zero_tolerance_abort (w : Workload) (cfg : config) (env : Nat → Nat → Outcome)
    (s s' : State) (sched : List Actor) (hk : cfg.MaxFailsPerClient = 0)
    (h : Reach w cfg env s) (hf : 0 < s.nFails) (hc : checkAhead w cfg s = true)
    (he : exec w cfg env sched s = some s') :
    0 < s'.nFails ∧
    (checkAhead w cfg s' = true ∨ s'.phase = .aborted ∨ s'.phase = .fatal ∨
      s'.phase = .panicked) ∧
    s'.phase ≠ .draining ∧ s'.phase ≠ .completed ∧
    (∀ i, s'.phase = .dispatch i →
      step w cfg env .coordinator s' = some { s' with phase := .aborted }) ∧
    ((∀ a, step w cfg env a s' = none) →
      s'.phase = .aborted ∨ s'.phase = .fatal ∨ s'.phase = .panicked) ∧
    (totalRequests w cfg < counterLimit → s'.phase ≠ .panicked) := by
  have hm := maxFails_zero hk
  have hpos := (checkAhead_pos hc).1
  have hI : Inv w cfg env s := by
    rcases reach_cases h with ⟨rfl, hp⟩ | hI
    · simp [checkAhead, hp] at hc
    · exact hI
  obtain ⟨hI', hf', hc'⟩ := ahead_exec sched hI hm hf (Or.inl hc) he
  have hnd : s'.phase ≠ .draining := by
    intro hp
    rcases hc' with h1 | h1 | h1 | h1
    · simp [checkAhead, hp] at h1
    · rw [hp] at h1; cases h1
    · rw [hp] at h1; cases h1
    · rw [hp] at h1; cases h1
  have hnc : s'.phase ≠ .completed := by
    intro hp
    rcases hc' with h1 | h1 | h1 | h1
    · simp [checkAhead, hp] at h1
    · rw [hp] at h1; cases h1
    · rw [hp] at h1; cases h1
    · rw [hp] at h1; cases h1
  refine ⟨hf', hc', hnd, hnc, ?_, ?_, ?_⟩
  · intro i hp
    have hlt : (i : Int) < totalRequests w cfg := by
      rcases hc' with h1 | h1 | h1 | h1
      · simpa [checkAhead, hp] using h1
      · rw [hp] at h1; cases h1
      · rw [hp] at h1; cases h1
      · rw [hp] at h1; cases h1
    simp [step, coordStep, hp, hlt, hm, hf']
  · intro hterm
    rcases hc' with h1 | h1 | h1 | h1
    · exfalso
      obtain ⟨-, ha, hnd'⟩ := checkAhead_pos h1
      obtain ⟨a, u, hu⟩ := step_enabled hI' (fun hp => absurd hp hnd') ha
      rw [hterm a] at hu
      cases hu
    · exact Or.inl h1
    · exact Or.inr (Or.inl h1)
    · exact Or.inr (Or.inr h1)
  · intro hlt hp
    have hph := hI'.phase
    simp only [PhaseOK, hp] at hph
    have := hph.2 ⟨le_of_lt hpos, hlt⟩
    omega

theorem zero_tolerance_abort_witness :
    (twoRequests.MaxFailsPerClient = 0 ∧ Reach .url twoRequests allErr failureRecorded ∧
      0 < failureRecorded.nFails ∧ checkAhead .url twoRequests failureRecorded = true ∧
      exec .url twoRequests allErr [.task 0, .coordinator] failureRecorded =
        some { clients := [0]
               tasks := [{ req := 0, client := 0, pc := .finished, incs := 1, sent := 1,
                           dones := 1 }]
               nFails := 1, wg := 1, phase := .aborted }) ∧
    ((0 : Int) < 1 ∧
     (checkAhead .url twoRequests
        { clients := [0]
          tasks := [{ req := 0, client := 0, pc := .finished, incs := 1, sent := 1, dones := 1 }]
          nFails := 1, wg := 1, phase := .aborted } = true ∨
      Phase.aborted = .aborted ∨ Phase.aborted = .fatal ∨ Phase.aborted = .panicked) ∧
     Phase.aborted ≠ .draining ∧ Phase.aborted ≠ .completed ∧
     (∀ i, Phase.aborted = .dispatch i →
       step .url twoRequests allErr .coordinator
         { clients := [0]
           tasks := [{ req := 0, client := 0, pc := .finished, incs := 1, sent := 1, dones := 1 }]
           nFails := 1, wg := 1, phase := .aborted } =
         some { clients := [0]
                tasks := [{ req := 0, client := 0, pc := .finished, incs := 1, sent := 1,
                            dones := 1 }]
                nFails := 1, wg := 1, phase := .aborted }) ∧
     ((∀ a, step .url twoRequests allErr a
         { clients := [0]
           tasks := [{ req := 0, client := 0, pc := .finished, incs := 1, sent := 1, dones := 1 }]
           nFails := 1, wg := 1, phase := .aborted } = none) →
       Phase.aborted = .aborted ∨ Phase.aborted = .fatal ∨ Phase.aborted = .panicked) ∧
     (totalRequests .url twoRequests < counterLimit → Phase.aborted ≠ .panicked)) :=
  ⟨⟨rfl,
    reach_of_exec [.coordinator, .coordinator, .task 0, .task 0, .task 0, .task 0]
      (by decide),
    by decide, by decide, by decide⟩,
   zero_tolerance_abort .url twoRequests allErr failureRecorded
     { clients := [0]
       tasks := [{ req := 0, client := 0, pc := .finished, incs := 1, sent := 1, dones := 1 }]
       nFails := 1, wg := 1, phase := .aborted }
     [.task 0, .coordinator] rfl
     (reach_of_exec [.coordinator, .coordinator, .task 0, .task 0, .task 0, .task 0]
       (by decide))
     (by decide) (by decide) (by decide)⟩

/-- C3 fails as stated: with `MaxFailsPerClient = 0`, a batch whose only
request exhausts its retries, and a batch whose last request does, both
complete with a Run Report (failure count 1) instead of aborting, because the
threshold is only checked before a dispatch. -/
theorem zero_tolerance_last_request :
    (singleConfig.MaxFailsPerClient = 0 ∧ outcome allErr 0 = .err ∧
      ∃ s, urlRequests singleConfig allErr singleFailsSchedule = some s ∧
        s.phase = .completed ∧ s.nFails = 1 ∧
        runReport .url singleConfig 1000 s.nFails =
          some { poolSize := 1, totalDuration := 1000, meanDuration := 1000,
                 failureCount := 1 }) ∧
    (twoRequests.MaxFailsPerClient = 0 ∧ outcome secondFails 1 = .err ∧
      ∃ s, urlRequests twoRequests secondFails secondFailsSchedule = some s ∧
        s.phase = .completed ∧ s.nFails = 1 ∧
        runReport .url twoRequests 1000 s.nFails =
          some { poolSize := 1, totalDuration := 1000, meanDuration := 500,
                 failureCount := 1 }) := by
  refine ⟨⟨rfl, by decide, _, rfl, by decide, by decide, by decide⟩,
    ⟨rfl, by decide, _, rfl, by decide, by decide, by decide⟩⟩

theorem incs_sum_le_failing {env : Nat → Nat → Outcome} (l : List Task)
    (h : ∀ t ∈ l, TaskOK env t) :
    (l.map (fun t => t.incs)).sum ≤
      (l.map (fun t => t.req)).countP (fun k => decide (outcome env k = .err)) := by
  induction l with
  | nil => simp
  | cons x xs ih =>
    have hx := h x (by simp)
    have := ih (fun t ht => h t (by simp [ht]))
    simp only [List.map_cons, List.sum_cons, List.countP_cons]
    by_cases ho : outcome env x.req = .err
    · have h1 := taskOK_incs_of_err hx ho
      simp only [ho, decide_True, if_true]
      split at h1 <;> omega
    · have h1 := taskOK_incs_of_resp hx ho
      simp only [ho, decide_False, Bool.false_eq_true, if_false]
      omega

theorem incs_sum_eq_failing {env : Nat → Nat → Outcome} (l : List Task)
    (h : ∀ t ∈ l, TaskOK env t) (hfin : ∀ t ∈ l, t.pc = .finished) :
    (l.map (fun t => t.incs)).sum =
      (l.map (fun t => t.req)).countP (fun k => decide (outcome env k = .err)) := by
  induction l with
  | nil => simp
  | cons x xs ih =>
    have hx := h x (by simp)
    have hf := hfin x (by simp)
    have := ih (fun t ht => h t (by simp [ht])) (fun t ht => hfin t (by simp [ht]))
    simp only [List.map_cons, List.sum_cons, List.countP_cons]
    by_cases ho : outcome env x.req = .err
    · have h1 := taskOK_incs_of_err hx ho
      simp only [hf, or_true, if_true] at h1
      simp only [ho, decide_True, if_true]
      omega
    · have h1 := taskOK_incs_of_resp hx ho
      simp only [ho, decide_False, Bool.false_eq_true, if_false]
      omega

theorem failingRequests_mono (env : Nat → Nat → Outcome) {n m : Nat} (h : n ≤ m) :
    failingRequests env n ≤ failingRequests env m := by
  induction m with
  | zero =>
    have : n = 0 := by omega
    subst this
    exact le_refl _
  | succ m ih =>
    rcases Nat.lt_or_ge n (m + 1) with hlt | hge
    · have := ih (by omega)
      simp only [failingRequests, List.range_succ, List.countP_append] at this ⊢
      omega
    · have : n = m + 1 := by omega
      subst this
      exact le_refl _

theorem incsTotal_le_failing {w : Workload} {cfg : config} {env : Nat → Nat → Outcome}
    {s : State} (hI : Inv w cfg env s) :
    incsTotal s ≤ failingRequests env s.tasks.length := by
  have := incs_sum_le_failing s.tasks hI.task
  rw [hI.reqs] at this
  exact this

theorem reach_nFails_le {w : Workload} {cfg : config} {env : Nat → Nat → Outcome} {s : State}
    (hI : Inv w cfg env s) :
    s.nFails ≤ (failingRequests env (totalRequests w cfg).toNat : Int) := by
  have h1 := hI.failsLe
  have h2 := incsTotal_le_failing hI
  have h3 : s.tasks.length ≤ (totalRequests w cfg).toNat := phaseOK_length_le hI.phase
  have h4 := failingRequests_mono env h3
  omega

theorem tolerated_phase {w : Workload} {cfg : config} {env : Nat → Nat → Outcome} {s : State}
    (hP : 0 ≤ cfg.NClients) (hT : 0 < totalRequests w cfg) (hfit : counterFits w cfg)
    (hfail : (failingRequests env (totalRequests w cfg).toNat : Int) ≤ maxFails cfg)
    (hok : ∀ i, i < (totalRequests w cfg).toNat →
      outcome env i = .err ∨ outcome env i = .resp 200)
    (h : Reach w cfg env s) :
    s.phase ≠ .aborted ∧ s.phase ≠ .fatal ∧ s.phase ≠ .panicked := by
  have hC : 0 ≤ wrapInt32 (totalRequests w cfg) := by
    rw [wrapInt32_of_range hfit.1 hfit.2]
    exact hfit.1
  induction h with
  | start =>
    have h1 : ¬ cfg.NClients < 0 := by omega
    have h2 : ¬ wrapInt32 (totalRequests w cfg) < 0 := by omega
    simp [init, h1, h2]
  | @next s t a hs hst ih =>
    have hI := reach_inv hP hC hs
    have hI' := inv_step hI hst
    have hpan : t.phase ≠ .panicked := by
      intro hp
      have := hI'.phase
      simp only [PhaseOK, hp] at this
      have := this.2 hfit
      omega
    cases a with
    | coordinator =>
      simp only [step] at hst
      rcases coordStep_cases hst with ⟨i, hp, hi, hgt, rfl⟩ | ⟨i, hp, hi, hle, rfl⟩ |
        ⟨i, hp, hi, rfl⟩ | ⟨i, c, rest, hp, hcl, rfl⟩ | ⟨hp, hw, ht, rfl⟩ | ⟨hp, hw, ht, rfl⟩
      · exfalso
        have := reach_nFails_le hI
        omega
      · simp
      · simp
      · simp
      · exact absurd rfl hpan
      · simp
    | task j =>
      simp only [step] at hst
      obtain ⟨ha, pre, u, post, hts, hj, hcases⟩ := taskStep_cases hst
      rcases hcases with ⟨-, -, rfl⟩ | ⟨-, ⟨st, ho, hne⟩, rfl⟩ | ⟨-, -, rfl⟩ | ⟨-, rfl⟩ |
        ⟨v, hpc, rfl⟩ | ⟨-, -, rfl⟩ | ⟨-, -, rfl⟩ | ⟨-, -, rfl⟩
      · exact ih
      · exfalso
        have hreq := hI.reqs
        rw [hts] at hreq
        have hlen := phaseOK_length_le hI.phase
        rw [hts] at hlen
        simp only [List.length_append, List.length_cons] at hlen
        have hureq : u.req = pre.length := by
          have h1 : ((pre ++ u :: post).map (fun t => t.req))[pre.length]? = some u.req := by
            simp only [List.map_append, List.map_cons]
            have := getElem?_mid (pre.map (fun t => t.req)) (post.map (fun t => t.req)) u.req
            simpa using this
          rw [hreq] at h1
          simp only [List.length_append, List.length_cons] at h1
          rw [List.getElem?_range (by omega)] at h1
          exact (Option.some.inj h1).symm
        rcases hok u.req (by omega) with h1 | h1
        · rw [h1] at ho; cases ho
        · rw [h1] at ho
          cases ho
          exact hne rfl
      · exact ih
      · exact ih
      · exact ih
      · exact ih
      · exact absurd rfl hpan
      · exact ih
theorem serial_init (w : Workload) (cfg : config) :
    Serial (init w cfg) ∧ midIncrement (init w cfg) ≤ 1 := by
  unfold init
  split
  · simp [Serial, midIncrement, incsTotal]
  · split <;> simp [Serial, midIncrement, incsTotal]

theorem serial_step {w : Workload} {cfg : config} {env : Nat → Nat → Outcome} {a : Actor}
    {s t : State} (hI : Inv w cfg env s) (hS : Serial s) (hm : midIncrement s ≤ 1)
    (h : step w cfg env a s = some t) : Serial t := by
  obtain ⟨hn, hv⟩ := hS
  cases a with
  | coordinator =>
    simp only [step] at h
    rcases coordStep_cases h with ⟨i, hp, hi, hgt, rfl⟩ | ⟨i, hp, hi, hle, rfl⟩ |
      ⟨i, hp, hi, rfl⟩ | ⟨i, c, rest, hp, hcl, rfl⟩ | ⟨hp, hw, ht, rfl⟩ | ⟨hp, hw, ht, rfl⟩
    · exact ⟨hn, hv⟩
    · exact ⟨hn, hv⟩
    · exact ⟨hn, hv⟩
    · constructor
      · simpa [incsTotal] using hn
      · intro x hx v hpc
        simp only [List.mem_append, List.mem_singleton] at hx
        rcases hx with hx | rfl
        · exact hv x hx v hpc
        · cases hpc
    · exact ⟨hn, hv⟩
    · exact ⟨hn, hv⟩
  | task j =>
    simp only [step] at h
    obtain ⟨ha, pre, u, post, hts, -, hcases⟩ := taskStep_cases h
    have hu : u ∈ s.tasks := by rw [hts]; simp
    simp only [incsTotal, hts] at hn
    have hv' : ∀ x, x ∈ pre ∨ x ∈ post → ∀ v, x.pc = .store v → v = s.nFails := by
      intro x hx v hpc
      refine hv x ?_ v hpc
      rw [hts]
      simp only [List.mem_append, List.mem_cons]
      tauto
    rcases hcases with ⟨hpc, -, rfl⟩ | ⟨hpc, -, rfl⟩ | ⟨hpc, -, rfl⟩ | ⟨hpc, rfl⟩ |
      ⟨v, hpc, rfl⟩ | ⟨hpc, -, rfl⟩ | ⟨hpc, -, rfl⟩ | ⟨hpc, -, rfl⟩
    · refine ⟨by simpa [incsTotal] using hn, ?_⟩
      intro x hx v hx'
      simp only [List.mem_append, List.mem_cons] at hx
      rcases hx with hx | rfl | hx
      · exact hv' x (Or.inl hx) v hx'
      · cases hx'
      · exact hv' x (Or.inr hx) v hx'
    · exact ⟨by simpa [incsTotal, hts] using hn, hv⟩
    · refine ⟨by simpa [incsTotal] using hn, ?_⟩
      intro x hx v hx'
      simp only [List.mem_append, List.mem_cons] at hx
      rcases hx with hx | rfl | hx
      · exact hv' x (Or.inl hx) v hx'
      · cases hx'
      · exact hv' x (Or.inr hx) v hx'
    · refine ⟨by simpa [incsTotal] using hn, ?_⟩
      intro x hx v hx'
      simp only [List.mem_append, List.mem_cons] at hx
      rcases hx with hx | rfl | hx
      · exact hv' x (Or.inl hx) v hx'
      · simp only [TaskPc.store.injEq] at hx'
        exact hx'.symm
      · exact hv' x (Or.inr hx) v hx'
    · have hr := stored_in_range hI hu hpc
      have hwrap : wrapInt (v + 1) = v + 1 := wrapInt_of_range (by omega) hr.2
      have hvn : v = s.nFails := hv u hu v hpc
      have hstore : u.pc.isStore = true := by rw [hpc]; rfl
      simp only [midIncrement, hts, List.filter_append, List.filter_cons, hstore, if_true,
        List.length_append, List.length_cons] at hm
      have hpre : pre.filter (fun t => t.pc.isStore) = [] :=
        List.eq_nil_of_length_eq_zero (by omega)
      have hpost : post.filter (fun t => t.pc.isStore) = [] :=
        List.eq_nil_of_length_eq_zero (by omega)
      have hnone : ∀ x, x ∈ pre ∨ x ∈ post → ∀ v', x.pc ≠ .store v' := by
        intro x hx v' hx'
        have hxs : x.pc.isStore = true := by rw [hx']; rfl
        rcases hx with hx | hx
        · have : x ∈ pre.filter (fun t => t.pc.isStore) := List.mem_filter.mpr ⟨hx, hxs⟩
          rw [hpre] at this
          cases this
        · have : x ∈ post.filter (fun t => t.pc.isStore) := List.mem_filter.mpr ⟨hx, hxs⟩
          rw [hpost] at this
          cases this
      constructor
      · show wrapInt (v + 1) = _
        rw [hwrap, hvn, hn]
        simp only [incsTotal, List.map_append, List.map_cons, List.sum_append, List.sum_cons]
        push_cast
        omega
      · intro x hx v' hx'
        simp only [List.mem_append, List.mem_cons] at hx
        rcases hx with hx | rfl | hx
        · exact absurd hx' (hnone x (Or.inl hx) v')
        · cases hx'
        · exact absurd hx' (hnone x (Or.inr hx) v')
    · refine ⟨by simpa [incsTotal] using hn, ?_⟩
      intro x hx v hx'
      simp only [List.mem_append, List.mem_cons] at hx
      rcases hx with hx | rfl | hx
      · exact hv' x (Or.inl hx) v hx'
      · cases hx'
      · exact hv' x (Or.inr hx) v hx'
    · exact ⟨by simpa [incsTotal, hts] using hn, hv⟩
    · refine ⟨by simpa [incsTotal] using hn, ?_⟩
      intro x hx v hx'
      simp only [List.mem_append, List.mem_cons] at hx
      rcases hx with hx | rfl | hx
      · exact hv' x (Or.inl hx) v hx'
      · cases hx'
      · exact hv' x (Or.inr hx) v hx'

theorem execSerial_exec {w : Workload} {cfg : config} {env : Nat → Nat → Outcome}
    (sched : List Actor) {s t : State} (h : execSerial w cfg env sched s = some t) :
    exec w cfg env sched s = some t := by
  induction sched generalizing s with
  | nil => simpa [execSerial, exec] using h
  | cons a rest ih =>
    simp only [execSerial] at h
    simp only [exec]
    split at h
    · simp at h
    next u hu =>
      split at h
      · exact ih h
      · simp at h

theorem serial_exec {w : Workload} {cfg : config} {env : Nat → Nat → Outcome}
    (sched : List Actor) {s t : State} (hI : Inv w cfg env s) (hS : Serial s)
    (hm : midIncrement s ≤ 1) (h : execSerial w cfg env sched s = some t) :
    Inv w cfg env t ∧ Serial t := by
  induction sched generalizing s with
  | nil =>
    simp only [execSerial, Option.some.injEq] at h
    subst h
    exact ⟨hI, hS⟩
  | cons a rest ih =>
    simp only [execSerial] at h
    split at h
    · simp at h
    next u hu =>
      split at h
      next hmu => exact ih (inv_step hI hu) (serial_step hI hS hm hu) hmu h
      · simp at h

theorem completed_nFails {w : Workload} {cfg : config} {env : Nat → Nat → Outcome} {s : State}
    (hI : Inv w cfg env s) (hfit : counterFits w cfg) (hS : Serial s)
    (hc : s.phase = .completed) :
    s.nFails = (failingRequests env (totalRequests w cfg).toNat : Int) := by
  have hfin := completed_all_finished hI hfit hc
  have hsum := incs_sum_eq_failing s.tasks hI.task hfin
  rw [hI.reqs] at hsum
  have hph := hI.phase
  simp only [PhaseOK, hc] at hph
  have hlen : s.tasks.length = (totalRequests w cfg).toNat := by omega
  rw [hS.1]
  simp only [incsTotal, failingRequests, hsum, hlen]

theorem mid_step_le {w : Workload} {cfg : config} {env : Nat → Nat → Outcome} {a : Actor}
    {s t : State} (h : step w cfg env a s = some t) :
    midIncrement t ≤ midIncrement s + 1 := by
  cases a with
  | coordinator =>
    simp only [step] at h
    have hrun : TaskPc.isStore .run = false := rfl
    rcases coordStep_cases h with ⟨i, hp, hi, hgt, rfl⟩ | ⟨i, hp, hi, hle, rfl⟩ |
      ⟨i, hp, hi, rfl⟩ | ⟨i, c, rest, hp, hcl, rfl⟩ | ⟨hp, hw, ht, rfl⟩ | ⟨hp, hw, ht, rfl⟩ <;>
    simp [midIncrement, List.filter_append, hrun]
  | task j =>
    simp only [step] at h
    obtain ⟨ha, pre, u, post, hts, -, hcases⟩ := taskStep_cases h
    have key : ∀ x : Task, ((pre ++ x :: post).filter (fun t => t.pc.isStore)).length ≤
        ((pre ++ u :: post).filter (fun t => t.pc.isStore)).length + 1 := by
      intro x
      simp only [List.filter_append, List.filter_cons, List.length_append]
      split <;> split <;> simp <;> omega
    rcases hcases with ⟨-, -, rfl⟩ | ⟨-, -, rfl⟩ | ⟨-, -, rfl⟩ | ⟨-, rfl⟩ |
      ⟨v, hpc, rfl⟩ | ⟨-, -, rfl⟩ | ⟨-, -, rfl⟩ | ⟨-, -, rfl⟩ <;>
    simp only [midIncrement, hts] <;> exact key _

theorem store_step {w : Workload} {cfg : config} {env : Nat → Nat → Outcome} {s : State}
    (ha : s.phase.alive = true) (hm : midIncrement s = 1) :
    ∃ j t, step w cfg env (.task j) s = some t ∧ midIncrement t = 0 := by
  have hne : s.tasks.filter (fun t => t.pc.isStore) ≠ [] := by
    intro h0
    simp [midIncrement, h0] at hm
  obtain ⟨u, hu⟩ := List.exists_mem_of_ne_nil _ hne
  obtain ⟨humem, hus⟩ := List.mem_filter.mp hu
  obtain ⟨j, hj⟩ := List.getElem?_of_mem humem
  obtain ⟨pre, post, hts, hjl, hset⟩ := list_split hj
  obtain ⟨v, hv⟩ : ∃ v, u.pc = .store v := by
    cases hp : u.pc <;> simp [hp, TaskPc.isStore] at hus
    exact ⟨_, rfl⟩
  refine ⟨j, { s with
      tasks := s.tasks.set j { u with pc := .release, incs := u.incs + 1 }
      nFails := wrapInt (v + 1) }, ?_, ?_⟩
  · simp [step, taskStep, ha, hj, hv]
  · have hrel : TaskPc.isStore .release = false := rfl
    simp only [midIncrement, hts, List.filter_append, List.filter_cons, hus, if_true,
      List.length_append, List.length_cons] at hm
    simp only [midIncrement, hset, List.filter_append, List.filter_cons, hrel,
      List.length_append]
    simp only [Bool.false_eq_true, if_false]
    omega

theorem can_complete_serial {w : Workload} {cfg : config} {env : Nat → Nat → Outcome}
    (hfit : counterFits w cfg)
    (hdead : ∀ s, Reach w cfg env s →
      s.phase ≠ .aborted ∧ s.phase ≠ .fatal ∧ s.phase ≠ .panicked)
    (n : Nat) (s : State) (h : Reach w cfg env s) (hI : Inv w cfg env s)
    (hm : midIncrement s ≤ 1)
    (hn : 7 * (totalRequests w cfg).toNat + 2 ≤ n + progress (totalRequests w cfg).toNat s) :
    ∃ sched t, execSerial w cfg env sched s = some t ∧ t.phase = .completed := by
  induction n generalizing s with
  | zero =>
    by_cases hc : s.phase = .completed
    · exact ⟨[], s, rfl, hc⟩
    · exfalso
      have ha : s.phase.alive = true := by
        have := hdead s h
        cases hp : s.phase <;> simp_all [Phase.alive]
      obtain ⟨a, u, hu⟩ := step_enabled hI (fun _ => hfit) ha
      have h1 := progress_step hI hu
      have h2 := progress_le (inv_step hI hu)
      omega
  | succ n ih =>
    by_cases hc : s.phase = .completed
    · exact ⟨[], s, rfl, hc⟩
    · have ha : s.phase.alive = true := by
        have := hdead s h
        cases hp : s.phase <;> simp_all [Phase.alive]
      have hnext : ∃ a u, step w cfg env a s = some u ∧ midIncrement u ≤ 1 := by
        rcases Nat.lt_or_ge (midIncrement s) 1 with h0 | h1
        · obtain ⟨a, u, hu⟩ := step_enabled hI (fun _ => hfit) ha
          have := mid_step_le hu
          exact ⟨a, u, hu, by omega⟩
        · obtain ⟨j, u, hu, hmu⟩ := @store_step w cfg env s ha (by omega)
          exact ⟨.task j, u, hu, by omega⟩
      obtain ⟨a, u, hu, hmu⟩ := hnext
      have h1 := progress_step hI hu
      obtain ⟨sched, t, hst, htc⟩ := ih u (Reach.next a h hu) (inv_step hI hu) hmu (by omega)
      refine ⟨a :: sched, t, ?_, htc⟩
      simp only [execSerial, hu, hmu, if_true]
      exact hst

/-- C4 (tolerated failures), amended: for a configuration with `0 < P`,
`0 < R`, `0 < k` whose request count fits the 32-bit counter of the WaitGroup
and whose product `P * k` fits a Go `int`, and a network in which at most
`P * k` requests exhaust their retries while every other request is answered
with status 200: in every reachable state `nFails > maxFails` is false, the
batch is neither aborted nor fatal nor panicked, and some actor can move
unless the batch is completed; every execution has at most
`7 * totalRequests + 2` steps; some execution in which no two tasks are in
the middle of `nFails++` at the same time completes, and every batch that
completes in that way reports a failure count equal to the number of failing
requests. -/
theorem tolerated_failures (w : Workload) (cfg : config) (env : Nat → Nat → Outcome)
    (hP : 0 < cfg.NClients) (hR : 0 < cfg.NRequests) (hk : 0 < cfg.MaxFailsPerClient)
    (hfit : nominalRequests w cfg < counterLimit)
    (hfitk : cfg.NClients * cfg.MaxFailsPerClient < intLimit)
    (hfail : (failingRequests env (nominalRequests w cfg).toNat : Int) ≤
      cfg.NClients * cfg.MaxFailsPerClient)
    (hok : ∀ i, i < (nominalRequests w cfg).toNat →
      outcome env i = .err ∨ outcome env i = .resp 200) :
    (∀ s, Reach w cfg env s →
      ¬ (s.nFails > maxFails cfg) ∧
      s.phase ≠ .aborted ∧ s.phase ≠ .fatal ∧ s.phase ≠ .panicked ∧
      (s.phase ≠ .completed → ∃ a t, step w cfg env a s = some t)) ∧
    (∀ sched s, exec w cfg env sched (init w cfg) = some s →
      sched.length ≤ 7 * (nominalRequests w cfg).toNat + 2) ∧
    (∃ sched s, execSerial w cfg env sched (init w cfg) = some s ∧ s.phase = .completed) ∧
    (∀ sched s, execSerial w cfg env sched (init w cfg) = some s →
      exec w cfg env sched (init w cfg) = some s ∧
      (s.phase = .completed →
        s.nFails = (failingRequests env (nominalRequests w cfg).toNat : Int))) := by
  have hpos := nominalRequests_pos w hP hR
  have hlim : nominalRequests w cfg < intLimit := by
    unfold counterLimit at hfit
    unfold intLimit
    omega
  have heq := totalRequests_eq_nominal (by omega) hlim
  have hcf : counterFits w cfg := ⟨by omega, by omega⟩
  have hmax : maxFails cfg = cfg.NClients * cfg.MaxFailsPerClient :=
    wrapInt_of_range (le_of_lt (Int.mul_pos hP hk)) hfitk
  have hP0 : 0 ≤ cfg.NClients := by omega
  have hT0 : 0 < totalRequests w cfg := by omega
  have hC : 0 ≤ wrapInt32 (totalRequests w cfg) := by
    rw [wrapInt32_of_range hcf.1 hcf.2]
    exact hcf.1
  have hdead : ∀ s, Reach w cfg env s →
      s.phase ≠ .aborted ∧ s.phase ≠ .fatal ∧ s.phase ≠ .panicked := by
    intro s hs
    exact tolerated_phase hP0 hT0 hcf (by rw [heq, hmax]; exact hfail)
      (by rw [heq]; exact hok) hs
  have hinit : Inv w cfg env (init w cfg) := inv_init env hP0 hC
  refine ⟨?_, ?_, ?_, ?_⟩
  · intro s hs
    have hI := reach_inv hP0 hC hs
    obtain ⟨h1, h2, h3⟩ := hdead s hs
    refine ⟨?_, h1, h2, h3, ?_⟩
    · have := reach_nFails_le hI
      rw [heq] at this
      rw [hmax]
      omega
    · intro hc
      have ha : s.phase.alive = true := by
        cases hp : s.phase <;> simp_all [Phase.alive]
      exact step_enabled hI (fun _ => hcf) ha
  · intro sched s he
    have := exec_length_le sched hinit he
    rwa [heq] at this
  · exact can_complete_serial hcf hdead (7 * (totalRequests w cfg).toNat + 2) (init w cfg)
      Reach.start hinit (serial_init w cfg).2 (by omega)
  · intro sched s he
    refine ⟨execSerial_exec sched he, fun hc => ?_⟩
    obtain ⟨hS0, hm0⟩ := serial_init w cfg
    obtain ⟨hI, hS⟩ := serial_exec sched hinit hS0 hm0 he
    have := completed_nFails hI hcf hS hc
    rwa [heq] at this

theorem tolerated_failures_witness :
    (0 < sampleConfig.NClients ∧ 0 < sampleConfig.NRequests ∧
      0 < sampleConfig.MaxFailsPerClient ∧ nominalRequests .url sampleConfig < counterLimit ∧
      sampleConfig.NClients * sampleConfig.MaxFailsPerClient < intLimit ∧
      (failingRequests secondFails (nominalRequests .url sampleConfig).toNat : Int) ≤
        sampleConfig.NClients * sampleConfig.MaxFailsPerClient ∧
      (∀ i, i < (nominalRequests .url sampleConfig).toNat →
        outcome secondFails i = .err ∨ outcome secondFails i = .resp 200)) ∧
    ((∀ s, Reach .url sampleConfig secondFails s →
      ¬ (s.nFails > maxFails sampleConfig) ∧
      s.phase ≠ .aborted ∧ s.phase ≠ .fatal ∧ s.phase ≠ .panicked ∧
      (s.phase ≠ .completed → ∃ a t, step .url sampleConfig secondFails a s = some t)) ∧
     (∀ sched s, exec .url sampleConfig secondFails sched (init .url sampleConfig) = some s →
       sched.length ≤ 7 * (nominalRequests .url sampleConfig).toNat + 2) ∧
     (∃ sched s, execSerial .url sampleConfig secondFails sched (init .url sampleConfig) =
       some s ∧ s.phase = .completed) ∧
     (∀ sched s, execSerial .url sampleConfig secondFails sched (init .url sampleConfig) =
         some s →
       exec .url sampleConfig secondFails sched (init .url sampleConfig) = some s ∧
       (s.phase = .completed →
         s.nFails =
           (failingRequests secondFails (nominalRequests .url sampleConfig).toNat : Int)))) :=
  ⟨⟨by decide, by decide, by decide, by decide, by decide, by decide, by decide⟩,
   tolerated_failures .url sampleConfig secondFails (by decide) (by decide) (by decide)
     (by decide) (by decide) (by decide) (by decide)⟩

/-- C4 fails as stated: with `NClients = 2` and `MaxFailsPerClient = 2 ^ 62`
the product `P * k` wraps to `-2 ^ 63`, and although no request fails at all
the first threshold check of the dispatch loop takes the abort branch; and
with `NClients = 1`, `NRequests = 2 ^ 31`, `MaxFailsPerClient = 1` the 32-bit
counter of the WaitGroup is negative after `wg.Add(totalRequests)`, which
panics before any request is dispatched. -/
theorem tolerated_failures_overflow :
    (0 < overflowTolerance.MaxFailsPerClient ∧
      failingRequests allOk 2 = 0 ∧
      maxFails overflowTolerance = -9223372036854775808 ∧
      (∃ s, urlRequests overflowTolerance allOk [.coordinator] = some s ∧
        s.phase = .aborted ∧ s.nFails = 0 ∧ s.tasks = []) ∧
      (∃ s, imgRequests overflowTolerance allOk [.coordinator] = some s ∧
        s.phase = .aborted ∧ s.nFails = 0 ∧ s.tasks = [])) ∧
    (0 < counterOverflow.NClients ∧ 0 < counterOverflow.NRequests ∧
      0 < counterOverflow.MaxFailsPerClient ∧
      totalRequests .url counterOverflow = 2147483648 ∧
      maxFails counterOverflow = 1 ∧
      (∃ s, urlRequests counterOverflow allOk [] = some s ∧
        s.phase = .panicked ∧ s.tasks = []) ∧
      ∀ a, step .url counterOverflow allOk a (init .url counterOverflow) = none) := by
  refine ⟨⟨by decide, by decide, by decide, ⟨_, rfl, ?_, ?_, ?_⟩, ⟨_, rfl, ?_, ?_, ?_⟩⟩,
    ⟨by decide, by decide, by decide, by decide, by decide, ⟨_, rfl, ?_, ?_⟩,
      fun a => step_dead a (by decide)⟩⟩ <;> decide

set_option maxRecDepth 100000

/-- C10 (race-safe failure accounting) does not hold of the code: `nFails++`
is a plain read followed by a plain write.  With two clients and two requests
that both exhaust their retries, the interleaving in which both tasks read
`nFails` before either writes it completes the batch with both increments
executed and `nFails = 1`: one increment is lost, in `urlRequests` and in
`imgRequests` alike, and the report shows one failed call instead of two. -/
theorem nFails_lost_update :
    (failingRequests allErr 2 = 2 ∧
      ∃ s, urlRequests sampleConfig allErr lostUpdateSchedule = some s ∧
        s.phase = .completed ∧ incsTotal s = 2 ∧ s.nFails = 1 ∧
        runReport .url sampleConfig 1000 s.nFails =
          some { poolSize := 2, totalDuration := 1000, meanDuration := 500,
                 failureCount := 1 }) ∧
    (failingRequests firstTwoFail 64 = 2 ∧
      ∃ s, imgRequests sampleConfig firstTwoFail lostUpdateScheduleImg = some s ∧
        s.phase = .completed ∧ incsTotal s = 2 ∧ s.nFails = 1) := by
  refine ⟨⟨by decide, _, rfl, ?_, ?_, ?_, ?_⟩, ⟨by decide, _, rfl, ?_, ?_, ?_⟩⟩ <;> decide

end TileserverPerformance
